import Mathlib

/-!
# nhppp-fast: thinning sampler and zero-truncated inversion sampler

A shallow embedding of `src/vdraw_intensity_step_regular.cpp` and
`src/vztdraw_sc_step_regular.cpp`.

Modelling conventions.

* A C++ `double` is a `Val`: a finite value (an exact rational; rounding and
  overflow of finite arithmetic are not modelled, and the two IEEE zeros are
  identified with `+0`), `+inf`, `-inf`, or NaN.  R's missing value `NA_real_`
  is a NaN, so the missing sentinel `get_na` is `Val.nan`.  Division by zero,
  arithmetic on infinities and comparisons with NaN follow IEEE 754.
* A `NumericMatrix` is its two dimensions and a cell function.  Rcpp's
  `operator()(i, j)` reads the flat column-major storage without a bounds
  check; a read whose column lies outside the matrix yields an unspecified
  value, supplied by the environment (`Env.oob`, indexed by the flat offset).
  Likewise the conversion of a non-finite or out-of-range `double` to `int`
  yields an unspecified integer (`Env.castJunk`).  Theorems quantify over the
  whole environment, so they hold whatever these unspecified values are.
* `R::runif` is a stream: the `k`-th call returns `Env.runif k`; the number of
  calls made so far is threaded through the loops as explicit state.
* Functions declared in `nhppp.h` but defined outside `src/` are either
  environment fields (the proposal sampler, the count generator, the inversion
  primitive, the R evaluator) or modelled from the specification (the two
  row-wise scans).  The matrices they return are taken to have one row per
  draw, and the evaluator's result the shape of its argument, so that their
  cells are read directly.
* A call that throws (an Rcpp range or index error) returns `none`.
-/

namespace Nhppp

/-! ## Doubles -/

/-- A C++ `double`: finite (exact rational), plus or minus infinity, or NaN. -/
inductive Val where
  | fin (q : ℚ)
  | pinf
  | ninf
  | nan
  deriving DecidableEq

namespace Val

/-- The missing sentinel `NumericVector::get_na()` (R's `NA_real_`, a NaN). -/
def get_na : Val := nan

/-- A value is missing when it is NaN (`R_IsNA` / `ISNAN`). -/
def isMissing : Val → Bool
  | nan => true
  | _ => false

/-- A value is finite: neither an infinity nor NaN. -/
def isFinite : Val → Bool
  | fin _ => true
  | _ => false

/-- IEEE negation. -/
def neg : Val → Val
  | fin a => fin (-a)
  | pinf => ninf
  | ninf => pinf
  | nan => nan

/-- IEEE addition. -/
def add : Val → Val → Val
  | fin a, fin b => fin (a + b)
  | fin _, pinf => pinf
  | fin _, ninf => ninf
  | pinf, fin _ => pinf
  | pinf, pinf => pinf
  | pinf, ninf => nan
  | ninf, fin _ => ninf
  | ninf, ninf => ninf
  | ninf, pinf => nan
  | nan, _ => nan
  | fin _, nan => nan
  | pinf, nan => nan
  | ninf, nan => nan

/-- IEEE subtraction. -/
def sub (a b : Val) : Val := add a (neg b)

/-- Product of an infinity of sign `pos` with the finite value `b`. -/
def infTimes (pos : Bool) (b : ℚ) : Val :=
  if 0 < b then (if pos then pinf else ninf)
  else if b < 0 then (if pos then ninf else pinf)
  else nan

/-- IEEE multiplication. -/
def mul : Val → Val → Val
  | fin a, fin b => fin (a * b)
  | fin a, pinf => infTimes true a
  | fin a, ninf => infTimes false a
  | pinf, fin b => infTimes true b
  | ninf, fin b => infTimes false b
  | pinf, pinf => pinf
  | pinf, ninf => ninf
  | ninf, pinf => ninf
  | ninf, ninf => pinf
  | nan, _ => nan
  | fin _, nan => nan
  | pinf, nan => nan
  | ninf, nan => nan

/-- IEEE division; a finite non-zero value over zero is an infinity of its
sign, zero over zero is NaN. -/
def div : Val → Val → Val
  | fin a, fin b =>
      if b = 0 then (if 0 < a then pinf else if a < 0 then ninf else nan)
      else fin (a / b)
  | fin _, pinf => fin 0
  | fin _, ninf => fin 0
  | pinf, fin b => if 0 ≤ b then pinf else ninf
  | ninf, fin b => if 0 ≤ b then ninf else pinf
  | pinf, pinf => nan
  | pinf, ninf => nan
  | ninf, pinf => nan
  | ninf, ninf => nan
  | nan, _ => nan
  | fin _, nan => nan
  | pinf, nan => nan
  | ninf, nan => nan

/-- C `floor`: infinities and NaN are returned unchanged. -/
def floor : Val → Val
  | fin a => fin (⌊a⌋ : ℤ)
  | v => v

/-- IEEE `a > b`; false as soon as one side is NaN. -/
def gt : Val → Val → Bool
  | fin a, fin b => decide (b < a)
  | fin _, ninf => true
  | pinf, fin _ => true
  | pinf, ninf => true
  | _, _ => false

/-- IEEE `a < b`. -/
def lt (a b : Val) : Prop := gt b a = true

instance (a b : Val) : Decidable (lt a b) := by
  unfold lt; infer_instance

/-- IEEE `a ≤ b`; false as soon as one side is NaN. -/
def le : Val → Val → Bool
  | fin a, fin b => decide (a ≤ b)
  | fin _, pinf => true
  | ninf, fin _ => true
  | ninf, pinf => true
  | ninf, ninf => true
  | pinf, pinf => true
  | _, _ => false

end Val

/-- Conversion `double → int` at the assignment `interval = floor(...)`: a
finite value whose truncation fits in 32 bits converts to that truncation;
anything else has no defined result and yields `junk`. -/
def toInt (junk : Val → ℤ) : Val → ℤ
  | Val.fin q =>
      let z : ℤ := if 0 ≤ q then ⌊q⌋ else ⌈q⌉
      if -(2 : ℤ) ^ 31 ≤ z ∧ z < (2 : ℤ) ^ 31 then z else junk (Val.fin q)
  | v => junk v

/-! ## Matrices -/

/-- An Rcpp `NumericMatrix`: dimensions and cells (`cell i j` is meaningful
for `i < nrow`, `j < ncol`). -/
structure NumericMatrix where
  nrow : ℕ
  ncol : ℕ
  cell : ℕ → ℕ → Val

namespace NumericMatrix

/-- `NumericMatrix M(n, m); std::fill(M.begin(), M.end(), v)`. -/
def filled (n m : ℕ) (v : Val) : NumericMatrix := ⟨n, m, fun _ _ => v⟩

/-- `NumericMatrix M(n, m)`: Rcpp zero-initialises the storage. -/
def zeros (n m : ℕ) : NumericMatrix := filled n m (Val.fin 0)

/-- Unchecked read `M(i, j)` for a valid row `i` and an `int` column `j`:
inside the matrix it is the cell, outside it is whatever lies at the flat
offset `i + nrow * j`. -/
def read (M : NumericMatrix) (oob : ℤ → Val) (i : ℕ) (j : ℤ) : Val :=
  if 0 ≤ j ∧ j < M.ncol then M.cell i j.toNat else oob (i + M.nrow * j)

/-- Write `M(i, j) = v`. -/
def set (M : NumericMatrix) (i j : ℕ) (v : Val) : NumericMatrix :=
  { M with cell := fun a b => if a = i ∧ b = j then v else M.cell a b }

/-- The list of the cells of row `i`, left to right. -/
def row (M : NumericMatrix) (i : ℕ) : List Val :=
  (List.range M.ncol).map (M.cell i)

/-- The matrix as a list of rows. -/
def toRows (M : NumericMatrix) : List (List Val) :=
  (List.range M.nrow).map M.row

/-- A matrix from a list of rows; the width is that of the first row and
cells outside the rows are missing. -/
def ofRows (rows : List (List Val)) : NumericMatrix :=
  ⟨rows.length, (rows.headD []).length,
    fun i j => ((rows.getD i []).getD j Val.get_na)⟩

/-- Two matrices are equal: same dimensions, same cells inside them. -/
def Same (A B : NumericMatrix) : Prop :=
  A.nrow = B.nrow ∧ A.ncol = B.ncol ∧
    ∀ i, i < A.nrow → ∀ j, j < A.ncol → A.cell i j = B.cell i j

end NumericMatrix

/-- Modelled from the spec: the running sum of a row, the scan behind
`matrix_cumsum_columns`. -/
def cumsumRow (f : ℕ → Val) : ℕ → Val
  | 0 => f 0
  | j + 1 => Val.add (cumsumRow f j) (f (j + 1))

/-- Modelled from the spec: `matrix_cumsum_columns` is declared in `nhppp.h`
and defined outside `src/`; the specification describes it as the row-wise
cumulative sum, same shape in and out. -/
def matrix_cumsum_columns (M : NumericMatrix) : NumericMatrix :=
  { M with cell := fun i j => cumsumRow (M.cell i) j }

/-- Modelled from the spec: `matrix_diff_columns` is declared in `nhppp.h`
and defined outside `src/`; the specification describes it as the row-wise
first difference, same shape in and out (the first column is kept). -/
def matrix_diff_columns (M : NumericMatrix) : NumericMatrix :=
  { M with cell := fun i j =>
      match j with
      | 0 => M.cell i 0
      | k + 1 => Val.sub (M.cell i (k + 1)) (M.cell i k) }

/-- Source line 16 of the thinning sampler (and line 21 of the inversion
sampler): `(range_t(_,1) - range_t(_,0)) / n_intervals`, one entry per draw. -/
def interval_duration (range_t : NumericMatrix) (n_intervals : ℕ) (draw : ℕ) : Val :=
  Val.div (Val.sub (range_t.cell draw 1) (range_t.cell draw 0)) (Val.fin n_intervals)

/-! ## The thinning sampler `vdraw_intensity_step_regular` -/

/-- What the thinning sampler takes from outside `src/`: the R evaluator
`lambda`, the proposal sampler `vdraw_sc_step_regular`, the uniform stream
behind `R::runif(0.0, 1.0)`, and the two sources of unspecified values. -/
structure Env where
  lambda : NumericMatrix → NumericMatrix
  vdraw_sc_step_regular :
    NumericMatrix → Bool → NumericMatrix → Val → Bool → NumericMatrix
  runif : ℕ → ℚ
  castJunk : Val → ℤ
  oob : ℤ → Val

/-- Source lines 17 and 21-33: the cumulative form `Lambda_maj`.  When the
supplied matrix is a rate, it is the row-wise cumulative sum with every
column multiplied by the draws' interval durations; otherwise it is the
supplied matrix. -/
def Lambda_maj (rate_maj : NumericMatrix) (is_cumulative : Bool)
    (range_t : NumericMatrix) : NumericMatrix :=
  if !is_cumulative then
    { matrix_cumsum_columns rate_maj with
      cell := fun i j =>
        Val.mul ((matrix_cumsum_columns rate_maj).cell i j)
          (interval_duration range_t rate_maj.ncol i) }
  else rate_maj

/-- Source lines 18 and 21-33: the rate form `lambda_maj`.  It is allocated
zero-filled; only the `is_cumulative` branch assigns it (first difference
divided by the interval durations).  The other branch never writes it. -/
def lambda_maj (rate_maj : NumericMatrix) (is_cumulative : Bool)
    (range_t : NumericMatrix) : NumericMatrix :=
  if !is_cumulative then NumericMatrix.zeros rate_maj.nrow rate_maj.ncol
  else
    { matrix_diff_columns rate_maj with
      cell := fun i j =>
        Val.div ((matrix_diff_columns rate_maj).cell i j)
          (interval_duration range_t rate_maj.ncol i) }

/-- Everything the accept/reject scan (source lines 48-62) reads. -/
structure ScanCtx where
  E : Env
  Zstar : NumericMatrix
  lambda_star : NumericMatrix
  lambda_maj : NumericMatrix
  dur : ℕ → Val
  atmost1 : Bool

/-- The mutable variables of the accept/reject scan: the output buffer `Z`,
`acc_i`, `max_acc_i`, and the number of uniforms drawn so far. -/
structure ScanState where
  Z : NumericMatrix
  acc_i : ℕ
  max_acc_i : ℕ
  drawn : ℕ

namespace ScanCtx

/-- Source line 51: `interval = floor(Zstar(draw, ev) / interval_duration(draw))`. -/
def interval (C : ScanCtx) (draw ev : ℕ) : ℤ :=
  toInt C.E.castJunk (Val.floor (Val.div (C.Zstar.cell draw ev) (C.dur draw)))

/-- The quotient compared with the uniform on source line 52:
`lambda_star(draw, ev) / lambda_maj(draw, interval)`. -/
def quotient (C : ScanCtx) (draw ev : ℕ) : Val :=
  Val.div (C.lambda_star.cell draw ev) (C.lambda_maj.read C.E.oob draw (C.interval draw ev))

/-- Source line 52: `accept`, when the uniform drawn is the `k`-th of the stream. -/
def accept (C : ScanCtx) (draw ev k : ℕ) : Bool :=
  Val.gt (C.quotient draw ev) (Val.fin (C.E.runif k))

/-- Source lines 50-61: the inner loop over the candidates of one draw,
entered at candidate `ev` with `n` candidates left. -/
def scanFrom (C : ScanCtx) (draw : ℕ) : ℕ → ℕ → ScanState → ScanState
  | 0, _, st => st
  | n + 1, ev, st =>
    if C.accept draw ev st.drawn then
      let st1 : ScanState :=
        { Z := st.Z.set draw st.acc_i (C.Zstar.cell draw ev)
          acc_i := st.acc_i + 1
          max_acc_i := max st.acc_i st.max_acc_i
          drawn := st.drawn + 1 }
      if C.atmost1 then st1 else scanFrom C draw n (ev + 1) st1
    else scanFrom C draw n (ev + 1) { st with drawn := st.drawn + 1 }

/-- Source lines 49-61: one iteration of the outer loop (`acc_i = 0`, then
the inner loop over all `Zstar.cols()` candidates). -/
def scanDraw (C : ScanCtx) (draw : ℕ) (st : ScanState) : ScanState :=
  scanFrom C draw C.Zstar.ncol 0 { st with acc_i := 0 }

/-- Source lines 48-62: the outer loop, entered at draw `draw` with `n`
draws left. -/
def drawsFrom (C : ScanCtx) : ℕ → ℕ → ScanState → ScanState
  | 0, _, st => st
  | n + 1, draw, st => drawsFrom C n (draw + 1) (scanDraw C draw st)

/-- Source lines 40-41 and 45-46: the state before the outer loop. -/
def init (C : ScanCtx) (n_draws : ℕ) : ScanState :=
  { Z := NumericMatrix.filled n_draws C.Zstar.ncol Val.get_na
    acc_i := 0, max_acc_i := 0, drawn := 0 }

/-- The state after the first `d` draws have been scanned. -/
def after (C : ScanCtx) (n_draws d : ℕ) : ScanState :=
  drawsFrom C d 0 (C.init n_draws)

end ScanCtx

/-- Source lines 35-46: the context of the scan for a call of the sampler. -/
def scanCtx (E : Env) (rate_maj : NumericMatrix) (is_cumulative : Bool)
    (range_t : NumericMatrix) (tol : Val) (atmost1 : Bool) : ScanCtx :=
  let Zstar := E.vdraw_sc_step_regular (Lambda_maj rate_maj is_cumulative range_t)
    true range_t tol false
  { E := E
    Zstar := Zstar
    lambda_star := E.lambda Zstar
    lambda_maj := lambda_maj rate_maj is_cumulative range_t
    dur := interval_duration range_t rate_maj.ncol
    atmost1 := atmost1 }

/-- The shapes under which a call runs to its `return`: there is a draw
(`Range(0, n_draws-1)` on source line 64 throws otherwise), the range matrix
has its two columns (`range_t(_,1)` on line 16 throws otherwise) and a row
for every draw (otherwise the vector of durations is too short: line 51
throws at the first draw beyond it, and lines 25 and 30 read past its end). -/
def ValidInput (rate_maj range_t : NumericMatrix) : Prop :=
  0 < rate_maj.nrow ∧ 2 ≤ range_t.ncol ∧ rate_maj.nrow ≤ range_t.nrow

instance (rate_maj range_t : NumericMatrix) : Decidable (ValidInput rate_maj range_t) := by
  unfold ValidInput; infer_instance

/-- The thinning sampler.  The result is the block of `Z` with rows
`0 .. n_draws-1` and columns `0 .. max_acc_i` (source line 64).  Nothing is
returned when the shapes make the call throw (see `ValidInput`). -/
def vdraw_intensity_step_regular (E : Env) (rate_maj : NumericMatrix)
    (is_cumulative : Bool) (range_t : NumericMatrix) (tol : Val) (atmost1 : Bool) :
    Option NumericMatrix :=
  let n_draws := rate_maj.nrow
  let C := scanCtx E rate_maj is_cumulative range_t tol atmost1
  let st := C.after n_draws n_draws
  if ValidInput rate_maj range_t then
    some
      { nrow := n_draws
        ncol := st.max_acc_i + 1
        cell := fun i j => st.Z.read E.oob i j }
  else none

/-! ## Closed forms used to state the properties of the scan -/

namespace ScanCtx

/-- The proposals the inner loop accepts, in the order it accepts them, when
it is entered at candidate `ev` with `n` candidates left and `k` uniforms
already drawn. -/
def accList (C : ScanCtx) (draw : ℕ) : ℕ → ℕ → ℕ → List Val
  | 0, _, _ => []
  | n + 1, ev, k =>
    if C.accept draw ev k then
      C.Zstar.cell draw ev :: (if C.atmost1 then [] else accList C draw n (ev + 1) (k + 1))
    else accList C draw n (ev + 1) (k + 1)

/-- The number of candidates the inner loop examines (one uniform each). -/
def used (C : ScanCtx) (draw : ℕ) : ℕ → ℕ → ℕ → ℕ
  | 0, _, _ => 0
  | n + 1, ev, k =>
    if C.accept draw ev k = true ∧ C.atmost1 = true then 1
    else 1 + used C draw n (ev + 1) (k + 1)

/-- The number of uniforms drawn before the scan of draw `d` starts. -/
def seed (C : ScanCtx) : ℕ → ℕ
  | 0 => 0
  | d + 1 => seed C d + used C d C.Zstar.ncol 0 (seed C d)

/-- The proposals accepted for draw `d` by a full run of the sampler. -/
def accepted (C : ScanCtx) (d : ℕ) : List Val :=
  accList C d C.Zstar.ncol 0 (seed C d)

end ScanCtx

/-- The non-missing entries of a row, in order. -/
def nonMissing (l : List Val) : List Val := l.filter (fun v => !v.isMissing)

namespace ScanCtx

/-- The iterations of the inner loop (source lines 50-61), in order, entered
at candidate `ev` with `n` candidates left: for each one the candidate index
`ev`, the value of `acc_i` when the iteration starts, and whether the
candidate is accepted, in which case the iteration writes `Z(draw, acc_i)`. -/
def iterations (C : ScanCtx) (draw : ℕ) : ℕ → ℕ → ScanState → List (ℕ × ℕ × Bool)
  | 0, _, _ => []
  | n + 1, ev, st =>
    if C.accept draw ev st.drawn then
      let st1 : ScanState :=
        { Z := st.Z.set draw st.acc_i (C.Zstar.cell draw ev)
          acc_i := st.acc_i + 1
          max_acc_i := max st.acc_i st.max_acc_i
          drawn := st.drawn + 1 }
      (ev, st.acc_i, true) :: (if C.atmost1 then [] else iterations C draw n (ev + 1) st1)
    else
      (ev, st.acc_i, false) :: iterations C draw n (ev + 1) { st with drawn := st.drawn + 1 }

/-- The number of accepted events of draw `d`: the value of `acc_i` when the
scan of draw `d` ends, in a run over `n_draws` draws. -/
def acceptedCount (C : ScanCtx) (n_draws d : ℕ) : ℕ := (C.after n_draws (d + 1)).acc_i

/-- The proposals of `draw`, in proposal order, whose quotient is strictly
greater than the uniform drawn for them when every candidate is examined:
candidate `ev` of `draw` then gets uniform number `draw * Zstar.cols() + ev`. -/
def kept (C : ScanCtx) (draw : ℕ) : List Val :=
  ((List.range C.Zstar.ncol).filter
    (fun ev => Val.gt (C.quotient draw ev)
      (Val.fin (C.E.runif (draw * C.Zstar.ncol + ev))))).map (C.Zstar.cell draw)

/-- The first candidate of `draw`, in proposal order, whose quotient is
strictly greater than its uniform, when `k` uniforms were drawn before the
scan of `draw` started (candidate `ev` gets uniform number `k + ev`). -/
def firstAccepted (C : ScanCtx) (draw k : ℕ) : Option ℕ :=
  (List.range C.Zstar.ncol).find?
    (fun ev => Val.gt (C.quotient draw ev) (Val.fin (C.E.runif (k + ev))))

end ScanCtx

/-! ## The zero-truncated inversion sampler `vztdraw_sc_step_regular` -/

/-- What the inversion sampler takes from outside `src/`: the zero-truncated
Poisson count generator `rztpois_vec` (one count per mean), the inversion
primitive `step_regular_inverse`, the uniform stream behind `R::runif(0, 1)`,
and the source of unspecified values. -/
structure InvEnv where
  rztpois_vec : List Val → List ℕ
  step_regular_inverse :
    NumericMatrix → ℕ → NumericMatrix → NumericMatrix → (ℕ → Val) → NumericMatrix →
      Bool → NumericMatrix
  runif : ℕ → ℚ
  oob : ℤ → Val

/-- Source lines 14-19: the cumulative intensity `Lambda`. -/
def Lambda (rate : NumericMatrix) (is_cumulative : Bool) : NumericMatrix :=
  if !is_cumulative then matrix_cumsum_columns rate else rate

/-- The total cumulative intensity of draw `r`: `Lambda(r, n_intervals-1)`. -/
def total (rate : NumericMatrix) (is_cumulative : Bool) (r : ℕ) : Val :=
  (Lambda rate is_cumulative).cell r (rate.ncol - 1)

/-- The argument of `rztpois_vec` on source line 23: the last column of
`Lambda`, one entry per draw. -/
def totals (rate : NumericMatrix) (is_cumulative : Bool) : List Val :=
  (List.range rate.nrow).map (total rate is_cumulative)

/-- Source line 23: `n_events`, the sampled counts. -/
def n_events (E : InvEnv) (rate : NumericMatrix) (is_cumulative : Bool) : List ℕ :=
  E.rztpois_vec (totals rate is_cumulative)

/-- Source line 24: `max_events`. -/
def max_events (E : InvEnv) (rate : NumericMatrix) (is_cumulative : Bool) : ℕ :=
  (n_events E rate is_cumulative).foldr max 0

/-- Source line 25: `max_cols`. -/
def max_cols (E : InvEnv) (rate : NumericMatrix) (is_cumulative atmost1 : Bool) : ℕ :=
  if atmost1 then 1 else max_events E rate is_cumulative

/-- The mutable variables of the loop on source lines 35-48: the targets
`Tau`, the scratch buffer `tmp`, and the number of uniforms drawn so far. -/
structure TauState where
  Tau : NumericMatrix
  tmp : List ℚ
  drawn : ℕ

/-- Source lines 36-38: `tmp[ev] = R::runif(0, 1)`, entered at slot `ev` with
`n` slots left to fill. -/
def fillFrom (runif : ℕ → ℚ) : ℕ → ℕ → TauState → TauState
  | 0, _, st => st
  | n + 1, ev, st =>
    fillFrom runif n (ev + 1)
      { st with tmp := st.tmp.set ev (runif st.drawn), drawn := st.drawn + 1 }

/-- Unchecked read `tmp[ev]`. -/
def tmpRead (oob : ℤ → Val) (tmp : List ℚ) (ev : ℕ) : Val :=
  match tmp[ev]? with
  | some x => Val.fin x
  | none => oob ev

/-- The smallest element of a non-empty list (0 for the empty list). -/
def minOf : List ℚ → ℚ
  | [] => 0
  | x :: xs => xs.foldl min x

/-- Source line 40: `*std::min_element(tmp.begin(), tmp.begin() + n)`.  On an
empty range `min_element` returns `tmp.begin()`, which is then read. -/
def minElement (oob : ℤ → Val) (tmp : List ℚ) (n : ℕ) : Val :=
  match tmp.take n with
  | [] => tmpRead oob tmp 0
  | x :: xs => Val.fin (xs.foldl min x)

/-- Source line 43: `std::sort(tmp.begin(), tmp.begin() + n)`. -/
def sortPrefix (tmp : List ℚ) (n : ℕ) : List ℚ :=
  (tmp.take n).insertionSort (fun a b => a ≤ b) ++ tmp.drop n

/-- Source lines 44-46: `Tau(r, ev) = tmp[ev] * Lambda(r, n_intervals-1)`,
entered at slot `ev` with `n` slots left to write. -/
def tauFrom (oob : ℤ → Val) (total : Val) (r : ℕ) : ℕ → ℕ → TauState → TauState
  | 0, _, st => st
  | n + 1, ev, st =>
    tauFrom oob total r n (ev + 1)
      { st with Tau := st.Tau.set r ev (Val.mul (tmpRead oob st.tmp ev) total) }

/-- Source lines 36-47: one iteration of the loop over draws.  `counts` is
`n_events` and `total` is `Lambda(r, n_intervals-1)`; a count read past the
end of `counts` is taken as 0. -/
def rowStep (E : InvEnv) (counts : List ℕ) (total : ℕ → Val) (atmost1 : Bool) (r : ℕ)
    (st : TauState) : TauState :=
  let st1 := fillFrom E.runif (counts.getD r 0) 0 st
  if atmost1 then
    let tau := Val.mul (minElement E.oob st1.tmp (counts.getD r 0)) (total r)
    { st1 with Tau := st1.Tau.set r 0 tau }
  else
    tauFrom E.oob (total r) r (counts.getD r 0) 0
      { st1 with tmp := sortPrefix st1.tmp (counts.getD r 0) }

/-- Source lines 35-48: the loop over draws, entered at draw `r` with `n`
draws left. -/
def rowsFrom (E : InvEnv) (counts : List ℕ) (total : ℕ → Val) (atmost1 : Bool) :
    ℕ → ℕ → TauState → TauState
  | 0, _, st => st
  | n + 1, r, st => rowsFrom E counts total atmost1 n (r + 1) (rowStep E counts total atmost1 r st)

/-- The state after the first `d` draws of a call: `Tau` starts as an
`n_draws × max_cols` matrix of missing values and `tmp` as `max_events`
zeros (source lines 30-33). -/
def tauAfter (E : InvEnv) (rate : NumericMatrix) (is_cumulative atmost1 : Bool) (d : ℕ) :
    TauState :=
  rowsFrom E (n_events E rate is_cumulative) (total rate is_cumulative) atmost1 d 0
    { Tau := NumericMatrix.filled rate.nrow (max_cols E rate is_cumulative atmost1) Val.get_na
      tmp := List.replicate (max_events E rate is_cumulative) 0
      drawn := 0 }

/-- The matrix of targets `Tau` handed to the inversion primitive. -/
def targets (E : InvEnv) (rate : NumericMatrix) (is_cumulative atmost1 : Bool) : NumericMatrix :=
  (tauAfter E rate is_cumulative atmost1 rate.nrow).Tau

/-- The inversion sampler.  Nothing is returned when the range matrix lacks
its two columns (`range_t.column(1)` on source line 21 throws), when the rate
matrix has no column (`Lambda(_, n_intervals-1)` on line 23 throws), or when
there is no count to take the maximum of on line 24. -/
def vztdraw_sc_step_regular (E : InvEnv) (rate : NumericMatrix) (is_cumulative : Bool)
    (range_t : NumericMatrix) (atmost1 : Bool) : Option NumericMatrix :=
  if 2 ≤ range_t.ncol ∧ 0 < rate.ncol ∧ n_events E rate is_cumulative ≠ [] then
    some (E.step_regular_inverse
      (NumericMatrix.filled rate.nrow (max_cols E rate is_cumulative atmost1) Val.get_na)
      (max_events E rate is_cumulative)
      (Lambda rate is_cumulative)
      (targets E rate is_cumulative atmost1)
      (interval_duration range_t rate.ncol)
      range_t atmost1)
  else none

/-- The number of uniforms drawn before the loop reaches draw `r`. -/
def offset (counts : List ℕ) (r : ℕ) : ℕ := (counts.take r).sum

/-- The uniforms drawn for draw `r`, in the order they are drawn. -/
def rowUniforms (E : InvEnv) (counts : List ℕ) (r : ℕ) : List ℚ :=
  (List.range (counts.getD r 0)).map (fun ev => E.runif (offset counts r + ev))

/-! ## Concrete inputs -/

/-- An environment whose proposal sampler returns `Zstar`, whose evaluator
returns `lambda_star` cell by cell, and whose uniforms are all `u`; a
conversion without a defined result gives `INT_MIN` and a read outside a
matrix gives `junk`. -/
def fixedEnv (Zstar lambda_star : List (List Val)) (u : ℚ) (junk : Val) : Env :=
  { lambda := fun _ => NumericMatrix.ofRows lambda_star
    vdraw_sc_step_regular := fun _ _ _ _ _ => NumericMatrix.ofRows Zstar
    runif := fun _ => u
    castJunk := fun _ => -(2 : ℤ) ^ 31
    oob := fun _ => junk }

/-- One draw, one interval, majorizing rate 2. -/
def rate2 : NumericMatrix := NumericMatrix.ofRows [[Val.fin 2]]

/-- One draw, two intervals, majorizing rate 1 in both. -/
def rate11 : NumericMatrix := NumericMatrix.ofRows [[Val.fin 1, Val.fin 1]]

/-- One draw over the range `[0, 1]`. -/
def range01 : NumericMatrix := NumericMatrix.ofRows [[Val.fin 0, Val.fin 1]]

/-- One draw over the range `[1, 3]`. -/
def range13 : NumericMatrix := NumericMatrix.ofRows [[Val.fin 1, Val.fin 3]]

/-- Proposal `1/2`, true intensity 1 there, uniform `3/4`. -/
def envHalf : Env := fixedEnv [[Val.fin (1 / 2)]] [[Val.fin 1]] (3 / 4) Val.nan

/-- Proposal `5/2`, true intensity 1 there, uniform `1/2`. -/
def envLate : Env := fixedEnv [[Val.fin (5 / 2)]] [[Val.fin 1]] (1 / 2) Val.nan

/-- Proposal `1/2`, true intensity 0 there, uniform `1/2`. -/
def envZero : Env := fixedEnv [[Val.fin (1 / 2)]] [[Val.fin 0]] (1 / 2) Val.nan

/-- One padding slot as the only proposal, an evaluator that returns 2
everywhere, uniform `1/2`.  The conversion of NaN to `int` on source line 51
has no defined result: `idx` stands for whatever it yields, and `junk` for
the value found by a read outside a matrix. -/
def padEnv (idx : ℤ) (junk : Val) : Env :=
  { lambda := fun Z => { Z with cell := fun _ _ => Val.fin 2 }
    vdraw_sc_step_regular := fun _ _ _ _ _ => NumericMatrix.ofRows [[Val.nan]]
    runif := fun _ => 1 / 2
    castJunk := fun _ => idx
    oob := fun _ => junk }

/-- Proposal `5/2`, true intensity 1 there, uniform `1/2`; `junk` stands for
the value found by a read outside a matrix. -/
def lateEnv (junk : Val) : Env :=
  fixedEnv [[Val.fin (5 / 2)]] [[Val.fin 1]] (1 / 2) junk

/-- Two draws with two intervals each, given in cumulative form. -/
def cum24 : NumericMatrix :=
  NumericMatrix.ofRows [[Val.fin 2, Val.fin 4], [Val.fin 2, Val.fin 4]]

/-- Two draws over the range `[0, 2]`. -/
def range02 : NumericMatrix :=
  NumericMatrix.ofRows [[Val.fin 0, Val.fin 2], [Val.fin 0, Val.fin 2]]

/-- Two draws: proposals `1/4, 3/2` and `1/2` (then padding); the true
intensity is 1 at every proposal and missing at the padding; every uniform
is `1/4`. -/
def envTwo : Env :=
  fixedEnv [[Val.fin (1 / 4), Val.fin (3 / 2)], [Val.fin (1 / 2), Val.nan]]
    [[Val.fin 1, Val.fin 1], [Val.fin 1, Val.nan]] (1 / 4) Val.nan

/-- One draw with the proposals `1/4` and `3/4`, true intensity 2 at both
(the majorant `rate2` is exact), uniform `1/2`. -/
def envExact : Env :=
  fixedEnv [[Val.fin (1 / 4), Val.fin (3 / 4)]] [[Val.fin 2, Val.fin 2]] (1 / 2) Val.nan

/-- An inversion primitive that hands the targets back unchanged, a count
generator that returns `counts`, and the uniform stream `u`. -/
def fixedInv (counts : List ℕ) (u : ℕ → ℚ) : InvEnv :=
  { rztpois_vec := fun _ => counts
    step_regular_inverse := fun _ _ _ Tau _ _ _ => Tau
    runif := u
    oob := fun _ => Val.nan }

/-- A stream of uniforms that starts `3/4, 1/4, 1/2` and goes on with `1/8`. -/
def someUniforms (k : ℕ) : ℚ :=
  match k with
  | 0 => 3 / 4
  | 1 => 1 / 4
  | 2 => 1 / 2
  | _ => 1 / 8

/-- Two draws, two intervals: rates `1, 1` and `1/2, 1/2`. -/
def rateTwo : NumericMatrix :=
  NumericMatrix.ofRows [[Val.fin 1, Val.fin 1], [Val.fin (1 / 2), Val.fin (1 / 2)]]

/-- An inversion primitive for a rate that is constant over the range:
linear interpolation of the target between the two ends of the range,
`start + Tau / Lambda(last) * (end - start)`, one time per target. -/
def linearInverse (Lam Tau range_t : NumericMatrix) : NumericMatrix :=
  { Tau with
    cell := fun r j =>
      Val.add (range_t.cell r 0)
        (Val.mul (Val.div (Tau.cell r j) (Lam.cell r (Lam.ncol - 1)))
          (Val.sub (range_t.cell r 1) (range_t.cell r 0))) }

/-- The linear inversion primitive, a count generator that returns `counts`,
and the uniform stream `u`. -/
def linearInv (counts : List ℕ) (u : ℕ → ℚ) : InvEnv :=
  { rztpois_vec := fun _ => counts
    step_regular_inverse := fun _ _ Lam Tau _ range_t _ => linearInverse Lam Tau range_t
    runif := u
    oob := fun _ => Val.nan }

/-- One draw over the range `[-3, -1]`. -/
def rangeNeg : NumericMatrix := NumericMatrix.ofRows [[Val.fin (-3), Val.fin (-1)]]

/-- One draw over the range `[0, 4]`. -/
def range04 : NumericMatrix := NumericMatrix.ofRows [[Val.fin 0, Val.fin 4]]

/-- One draw, two intervals: rates `1/2, 1/2`. -/
def rateHalf : NumericMatrix := NumericMatrix.ofRows [[Val.fin (1 / 2), Val.fin (1 / 2)]]

/-! ## The scan: loop invariants -/

namespace ScanCtx

theorem scanFrom_acc_i (C : ScanCtx) (draw n : ℕ) : ∀ (ev : ℕ) (st : ScanState),
    (scanFrom C draw n ev st).acc_i = st.acc_i + (accList C draw n ev st.drawn).length := by
  induction n with
  | zero => intro ev st; simp [scanFrom, accList]
  | succ n ih =>
    intro ev st
    simp only [scanFrom, accList]
    by_cases ha : C.accept draw ev st.drawn = true
    · by_cases h1 : C.atmost1 = true
      · simp [ha, h1]
      · simp [ha, h1, ih]; omega
    · simp [ha, ih]

theorem scanFrom_drawn (C : ScanCtx) (draw n : ℕ) : ∀ (ev : ℕ) (st : ScanState),
    (scanFrom C draw n ev st).drawn = st.drawn + used C draw n ev st.drawn := by
  induction n with
  | zero => intro ev st; simp [scanFrom, used]
  | succ n ih =>
    intro ev st
    simp only [scanFrom, used]
    by_cases ha : C.accept draw ev st.drawn = true
    · by_cases h1 : C.atmost1 = true
      · simp [ha, h1]
      · simp [ha, h1, ih]; omega
    · simp [ha, ih]; omega

theorem scanFrom_max (C : ScanCtx) (draw n : ℕ) : ∀ (ev : ℕ) (st : ScanState),
    (scanFrom C draw n ev st).max_acc_i =
      if accList C draw n ev st.drawn = [] then st.max_acc_i
      else max (st.acc_i + (accList C draw n ev st.drawn).length - 1) st.max_acc_i := by
  induction n with
  | zero => intro ev st; simp [scanFrom, accList]
  | succ n ih =>
    intro ev st
    simp only [scanFrom, accList]
    by_cases ha : C.accept draw ev st.drawn = true
    · by_cases h1 : C.atmost1 = true
      · simp [ha, h1]
      · simp only [ha, h1, ih, if_true, if_false, Bool.false_eq_true]
        by_cases hl : accList C draw n (ev + 1) (st.drawn + 1) = []
        · simp [hl]
        · have : 0 < (accList C draw n (ev + 1) (st.drawn + 1)).length :=
            List.length_pos.mpr hl
          simp [hl]
          omega
    · simp [ha, ih]

theorem scanFrom_dims (C : ScanCtx) (draw n : ℕ) : ∀ (ev : ℕ) (st : ScanState),
    (scanFrom C draw n ev st).Z.nrow = st.Z.nrow ∧
      (scanFrom C draw n ev st).Z.ncol = st.Z.ncol := by
  induction n with
  | zero => intro ev st; simp [scanFrom]
  | succ n ih =>
    intro ev st
    simp only [scanFrom]
    by_cases ha : C.accept draw ev st.drawn = true
    · by_cases h1 : C.atmost1 = true
      · simp [ha, h1, NumericMatrix.set]
      · simp [ha, h1, ih, NumericMatrix.set]
    · simp [ha, ih]

theorem scanFrom_cell (C : ScanCtx) (draw n : ℕ) : ∀ (ev : ℕ) (st : ScanState) (i j : ℕ),
    (scanFrom C draw n ev st).Z.cell i j =
      if i = draw ∧ st.acc_i ≤ j ∧ j < st.acc_i + (accList C draw n ev st.drawn).length
      then (accList C draw n ev st.drawn).getD (j - st.acc_i) Val.get_na
      else st.Z.cell i j := by
  induction n with
  | zero =>
    intro ev st i j
    have : ¬ (i = draw ∧ st.acc_i ≤ j ∧ j < st.acc_i) := by omega
    simp [scanFrom, accList, this]
  | succ n ih =>
    intro ev st i j
    simp only [scanFrom, accList]
    by_cases ha : C.accept draw ev st.drawn = true
    · by_cases h1 : C.atmost1 = true
      · simp only [ha, h1, if_true, NumericMatrix.set, List.length_singleton]
        by_cases hij : i = draw ∧ j = st.acc_i
        · obtain ⟨rfl, rfl⟩ := hij
          simp
        · have : ¬ (i = draw ∧ st.acc_i ≤ j ∧ j < st.acc_i + 1) := by
            rintro ⟨h, h2, h3⟩; exact hij ⟨h, by omega⟩
          simp [hij, this]
      · simp only [ha, h1, ih, if_true, if_false, Bool.false_eq_true, NumericMatrix.set,
          List.length_cons]
        by_cases hi : i = draw
        · subst hi
          by_cases hj : j = st.acc_i
          · subst hj; simp
          · by_cases hlt : j < st.acc_i
            · have h2 : ¬ (st.acc_i + 1 ≤ j) := by omega
              have h3 : ¬ (st.acc_i ≤ j) := by omega
              simp [h2, h3, hj]
            · have h4 : st.acc_i + 1 ≤ j := by omega
              have h5 : st.acc_i ≤ j := by omega
              have h6 : j - st.acc_i = (j - (st.acc_i + 1)) + 1 := by omega
              have h7 : (j < st.acc_i + 1 + (accList C i n (ev + 1) (st.drawn + 1)).length) ↔
                  (j < st.acc_i + ((accList C i n (ev + 1) (st.drawn + 1)).length + 1)) := by
                omega
              simp only [h4, h5, true_and, h7, hj, and_false, if_false]
              rw [h6, List.getD_cons_succ]
        · simp [hi]
    · simp [ha, ih]

theorem accList_length_le (C : ScanCtx) (draw n : ℕ) : ∀ (ev k : ℕ),
    (accList C draw n ev k).length ≤ n := by
  induction n with
  | zero => intro ev k; simp [accList]
  | succ n ih =>
    intro ev k
    simp only [accList]
    have := ih (ev + 1) (k + 1)
    split_ifs <;> simp <;> omega

theorem drawsFrom_succ (C : ScanCtx) (n : ℕ) : ∀ (draw : ℕ) (st : ScanState),
    drawsFrom C (n + 1) draw st = scanDraw C (draw + n) (drawsFrom C n draw st) := by
  induction n with
  | zero => intro draw st; simp [drawsFrom]
  | succ n ih =>
    intro draw st
    rw [drawsFrom, ih (draw + 1) (scanDraw C draw st)]
    have : draw + 1 + n = draw + (n + 1) := by omega
    rw [this]
    rfl

theorem after_succ (C : ScanCtx) (n d : ℕ) :
    after C n (d + 1) = scanDraw C d (after C n d) := by
  unfold after
  rw [drawsFrom_succ]
  simp

theorem after_drawn (C : ScanCtx) (n d : ℕ) : (after C n d).drawn = seed C d := by
  induction d with
  | zero => simp [after, drawsFrom, init, seed]
  | succ d ih =>
    rw [after_succ, scanDraw, scanFrom_drawn]
    simp [ih, seed]

theorem after_dims (C : ScanCtx) (n d : ℕ) :
    (after C n d).Z.nrow = n ∧ (after C n d).Z.ncol = C.Zstar.ncol := by
  induction d with
  | zero => simp [after, drawsFrom, init, NumericMatrix.filled]
  | succ d ih =>
    rw [after_succ, scanDraw]
    have := scanFrom_dims C d C.Zstar.ncol 0 { after C n d with acc_i := 0 }
    simp only [this, ih]
    trivial

theorem after_cell (C : ScanCtx) (n d : ℕ) (i j : ℕ) :
    (after C n d).Z.cell i j =
      if i < d then (accepted C i).getD j Val.get_na else Val.get_na := by
  induction d with
  | zero => simp [after, drawsFrom, init, NumericMatrix.filled]
  | succ d ih =>
    rw [after_succ, scanDraw, scanFrom_cell]
    simp only [after_drawn, ih, Nat.zero_le, true_and, Nat.zero_add, Nat.sub_zero]
    by_cases hi : i = d
    · subst hi
      by_cases hj : j < (accList C i C.Zstar.ncol 0 (seed C i)).length
      · simp [hj, accepted]
      · have hge : (accList C i C.Zstar.ncol 0 (seed C i)).length ≤ j := by omega
        simp [hj, accepted, List.getElem?_eq_none hge]
    · by_cases hlt : i < d
      · have : i < d + 1 := by omega
        simp [hi, hlt, this]
      · have : ¬ i < d + 1 := by omega
        simp [hi, hlt, this]

theorem after_max (C : ScanCtx) (n d : ℕ) :
    (after C n d).max_acc_i = (Finset.range d).sup (fun i => (accepted C i).length) - 1 := by
  induction d with
  | zero => simp [after, drawsFrom, init]
  | succ d ih =>
    rw [after_succ, scanDraw, scanFrom_max]
    simp only [after_drawn, ih, Nat.zero_add, Finset.range_succ, Finset.sup_insert]
    change _ = max (accepted C d).length _ - 1
    by_cases hl : accList C d C.Zstar.ncol 0 (seed C d) = []
    · simp [hl, accepted]
    · have hpos : 0 < (accList C d C.Zstar.ncol 0 (seed C d)).length := List.length_pos.mpr hl
      simp only [hl, if_false, accepted]
      omega

/-! ### Closed forms of the accepted list -/

theorem accList_eq_filter (C : ScanCtx) (h1 : C.atmost1 = false) (draw n : ℕ) :
    ∀ (ev k : ℕ), accList C draw n ev k =
      ((List.range n).filter (fun t => C.accept draw (ev + t) (k + t))).map
        (fun t => C.Zstar.cell draw (ev + t)) := by
  induction n with
  | zero => intro ev k; simp [accList]
  | succ n ih =>
    intro ev k
    simp only [accList, h1, Bool.false_eq_true, if_false, ih]
    rw [List.range_succ_eq_map, List.filter_cons, List.filter_map]
    have hf : ((fun t => C.accept draw (ev + t) (k + t)) ∘ Nat.succ) =
        (fun t => C.accept draw (ev + 1 + t) (k + 1 + t)) := by
      funext t
      simp only [Function.comp, Nat.succ_eq_add_one]
      rw [Nat.add_assoc ev 1 t, Nat.add_assoc k 1 t, Nat.add_comm 1 t]
    have hg : ((fun t => C.Zstar.cell draw (ev + t)) ∘ Nat.succ) =
        (fun t => C.Zstar.cell draw (ev + 1 + t)) := by
      funext t
      simp only [Function.comp, Nat.succ_eq_add_one]
      rw [Nat.add_assoc ev 1 t, Nat.add_comm 1 t]
    rw [hf]
    by_cases ha : C.accept draw ev k = true
    · simp only [ha, if_true, Nat.add_zero, List.map_cons, List.map_map, hg]
    · simp only [ha, if_false, Nat.add_zero, List.map_map, hg, Bool.false_eq_true]

theorem used_eq_of_all (C : ScanCtx) (h1 : C.atmost1 = false) (draw n : ℕ) :
    ∀ (ev k : ℕ), used C draw n ev k = n := by
  induction n with
  | zero => intro ev k; simp [used]
  | succ n ih => intro ev k; simp [used, h1, ih]; omega

theorem seed_eq_of_all (C : ScanCtx) (h1 : C.atmost1 = false) (d : ℕ) :
    seed C d = d * C.Zstar.ncol := by
  induction d with
  | zero => simp [seed]
  | succ d ih => simp [seed, ih, used_eq_of_all C h1, Nat.succ_mul]

theorem accList_eq_find (C : ScanCtx) (h1 : C.atmost1 = true) (draw n : ℕ) :
    ∀ (ev k : ℕ), accList C draw n ev k =
      (((List.range n).find? (fun t => C.accept draw (ev + t) (k + t))).map
        (fun t => C.Zstar.cell draw (ev + t))).toList := by
  induction n with
  | zero => intro ev k; simp [accList]
  | succ n ih =>
    intro ev k
    simp only [accList, h1, if_true, ih]
    rw [List.range_succ_eq_map, List.find?_cons, List.find?_map]
    have hf : ((fun t => C.accept draw (ev + t) (k + t)) ∘ Nat.succ) =
        (fun t => C.accept draw (ev + 1 + t) (k + 1 + t)) := by
      funext t
      simp only [Function.comp, Nat.succ_eq_add_one]
      rw [Nat.add_assoc ev 1 t, Nat.add_assoc k 1 t, Nat.add_comm 1 t]
    rw [hf]
    have hg : ((fun t => C.Zstar.cell draw (ev + t)) ∘ Nat.succ) =
        (fun t => C.Zstar.cell draw (ev + 1 + t)) := by
      funext t
      simp only [Function.comp, Nat.succ_eq_add_one]
      rw [Nat.add_assoc ev 1 t, Nat.add_comm 1 t]
    by_cases ha : C.accept draw ev k = true
    · simp [ha]
    · simp only [ha, if_false, Nat.add_zero, Option.map_map, hg, Bool.false_eq_true]

theorem used_eq_find (C : ScanCtx) (h1 : C.atmost1 = true) (draw n : ℕ) :
    ∀ (ev k : ℕ), used C draw n ev k =
      match (List.range n).find? (fun t => C.accept draw (ev + t) (k + t)) with
      | some t => t + 1
      | none => n := by
  induction n with
  | zero => intro ev k; simp [used]
  | succ n ih =>
    intro ev k
    simp only [used, h1, and_true, ih]
    rw [List.range_succ_eq_map, List.find?_cons, List.find?_map]
    have hf : ((fun t => C.accept draw (ev + t) (k + t)) ∘ Nat.succ) =
        (fun t => C.accept draw (ev + 1 + t) (k + 1 + t)) := by
      funext t
      simp only [Function.comp, Nat.succ_eq_add_one]
      rw [Nat.add_assoc ev 1 t, Nat.add_assoc k 1 t, Nat.add_comm 1 t]
    rw [hf]
    by_cases ha : C.accept draw ev k = true
    · simp [ha]
    · simp only [ha, if_false, Nat.add_zero, false_and, Bool.false_eq_true]
      cases (List.range n).find? (fun t => C.accept draw (ev + 1 + t) (k + 1 + t)) with
      | none => simp [Nat.add_comm]
      | some t => simp [Nat.add_comm]

theorem accList_sublist (C : ScanCtx) (draw n : ℕ) : ∀ (ev k : ℕ),
    List.Sublist (accList C draw n ev k)
      ((List.range n).map (fun t => C.Zstar.cell draw (ev + t))) := by
  induction n with
  | zero => intro ev k; simp [accList]
  | succ n ih =>
    intro ev k
    rw [List.range_succ_eq_map, List.map_cons, List.map_map]
    have hg : ((fun t => C.Zstar.cell draw (ev + t)) ∘ Nat.succ) =
        (fun t => C.Zstar.cell draw (ev + 1 + t)) := by
      funext t
      simp only [Function.comp, Nat.succ_eq_add_one]
      rw [Nat.add_assoc ev 1 t, Nat.add_comm 1 t]
    rw [hg]
    simp only [accList, Nat.add_zero]
    have := ih (ev + 1) (k + 1)
    by_cases ha : C.accept draw ev k = true
    · by_cases hb : C.atmost1 = true
      · simp [ha, hb]
      · simp only [ha, hb, if_true, if_false, Bool.false_eq_true]
        exact List.Sublist.cons₂ _ this
    · simp only [ha, if_false, Bool.false_eq_true]
      exact List.Sublist.cons _ this

theorem accepted_sublist_row (C : ScanCtx) (d : ℕ) :
    List.Sublist (accepted C d) (C.Zstar.row d) := by
  have := accList_sublist C d C.Zstar.ncol 0 (seed C d)
  simpa [accepted, NumericMatrix.row] using this

theorem acceptedCount_eq (C : ScanCtx) (n d : ℕ) :
    acceptedCount C n d = (accepted C d).length := by
  rw [acceptedCount, after_succ, scanDraw, scanFrom_acc_i]
  simp [after_drawn, accepted]

theorem accepted_eq_kept (C : ScanCtx) (h1 : C.atmost1 = false) (d : ℕ) :
    accepted C d = kept C d := by
  rw [accepted, accList_eq_filter C h1, seed_eq_of_all C h1]
  simp [kept, accept]

theorem accepted_eq_first (C : ScanCtx) (h1 : C.atmost1 = true) (d : ℕ) :
    accepted C d = ((firstAccepted C d (seed C d)).map (C.Zstar.cell d)).toList := by
  rw [accepted, accList_eq_find C h1]
  simp [firstAccepted, accept]

theorem accepted_length_le (C : ScanCtx) (d : ℕ) :
    (accepted C d).length ≤ C.Zstar.ncol :=
  accList_length_le C d C.Zstar.ncol 0 (seed C d)

theorem sup_accepted_le (C : ScanCtx) (n : ℕ) :
    (Finset.range n).sup (fun i => (accepted C i).length) ≤ C.Zstar.ncol :=
  Finset.sup_le (fun i _ => accepted_length_le C i)

theorem accepted_le_sup (C : ScanCtx) (n i : ℕ) (hi : i < n) :
    (accepted C i).length ≤ (Finset.range n).sup (fun i => (accepted C i).length) :=
  Finset.le_sup (f := fun i => (accepted C i).length) (Finset.mem_range.mpr hi)

end ScanCtx

/-! ## The returned matrix -/

/-- With valid shapes the sampler returns; the result has one row per draw
and `max 1 (largest accepted count)` columns, and inside the width of the
proposal matrix its row `i` is the accepted list of draw `i` followed by
missing values. -/
theorem vdraw_result (E : Env) (rate_maj : NumericMatrix) (is_cumulative : Bool)
    (range_t : NumericMatrix) (tol : Val) (atmost1 : Bool) (hv : ValidInput rate_maj range_t) :
    ∃ out,
      vdraw_intensity_step_regular E rate_maj is_cumulative range_t tol atmost1 = some out ∧
      out.nrow = rate_maj.nrow ∧
      out.ncol = max 1 ((Finset.range rate_maj.nrow).sup (fun i =>
        ((scanCtx E rate_maj is_cumulative range_t tol atmost1).accepted i).length)) ∧
      ∀ i j, i < rate_maj.nrow →
        j < (scanCtx E rate_maj is_cumulative range_t tol atmost1).Zstar.ncol →
        out.cell i j =
          ((scanCtx E rate_maj is_cumulative range_t tol atmost1).accepted i).getD j
            Val.get_na := by
  refine ⟨{ nrow := rate_maj.nrow
            ncol := ((scanCtx E rate_maj is_cumulative range_t tol atmost1).after
              rate_maj.nrow rate_maj.nrow).max_acc_i + 1
            cell := fun i j => ((scanCtx E rate_maj is_cumulative range_t tol atmost1).after
              rate_maj.nrow rate_maj.nrow).Z.read E.oob i j }, ?_, rfl, ?_, ?_⟩
  · simp only [vdraw_intensity_step_regular, hv, if_true]
  · simp only [ScanCtx.after_max]
    omega
  · intro i j hi hj
    have hE : (scanCtx E rate_maj is_cumulative range_t tol atmost1).E = E := rfl
    simp only [NumericMatrix.read, ScanCtx.after_dims, ScanCtx.after_cell, hi, if_true]
    have : (0 : ℤ) ≤ (j : ℤ) ∧ (j : ℤ) <
        ((scanCtx E rate_maj is_cumulative range_t tol atmost1).Zstar.ncol : ℤ) := by
      constructor <;> omega
    simp [this]

/-- A list read slot by slot with the missing sentinel as default is the
list followed by missing values. -/
theorem map_getD_range (L : List Val) (w : ℕ) (h : L.length ≤ w) :
    (List.range w).map (fun j => L.getD j Val.get_na) =
      L ++ List.replicate (w - L.length) Val.get_na := by
  apply List.ext_getElem
  · simp; omega
  · intro n h1 h2
    simp only [List.getElem_map, List.getElem_range]
    by_cases hn : n < L.length
    · rw [List.getElem_append_left hn]
      simp [List.getD_eq_getElem?_getD, List.getElem?_eq_getElem hn]
    · rw [List.getElem_append_right (by omega)]
      simp [List.getD_eq_getElem?_getD, List.getElem?_eq_none (Nat.le_of_not_lt hn)]

theorem nonMissing_append_replicate (L : List Val) (k : ℕ) :
    nonMissing (L ++ List.replicate k Val.get_na) = nonMissing L := by
  simp [nonMissing, List.filter_append, List.filter_replicate, Val.get_na, Val.isMissing]

/-- Inside the width of the proposal matrix, row `i` of the result is the
accepted list of draw `i` followed by missing values. -/
theorem vdraw_row (E : Env) (rate_maj : NumericMatrix) (is_cumulative : Bool)
    (range_t : NumericMatrix) (tol : Val) (atmost1 : Bool) (hv : ValidInput rate_maj range_t)
    (hc : 0 < (scanCtx E rate_maj is_cumulative range_t tol atmost1).Zstar.ncol) :
    ∃ out,
      vdraw_intensity_step_regular E rate_maj is_cumulative range_t tol atmost1 = some out ∧
      ∀ i, i < rate_maj.nrow →
        out.row i = (scanCtx E rate_maj is_cumulative range_t tol atmost1).accepted i ++
          List.replicate
            (out.ncol - ((scanCtx E rate_maj is_cumulative range_t tol atmost1).accepted i).length)
            Val.get_na := by
  obtain ⟨out, hout, -, hcol, hcell⟩ :=
    vdraw_result E rate_maj is_cumulative range_t tol atmost1 hv
  have hle := ScanCtx.sup_accepted_le (scanCtx E rate_maj is_cumulative range_t tol atmost1)
    rate_maj.nrow
  refine ⟨out, hout, ?_⟩
  intro i hi
  have hlen := ScanCtx.accepted_le_sup (scanCtx E rate_maj is_cumulative range_t tol atmost1)
    rate_maj.nrow i hi
  rw [← map_getD_range _ _ (by omega)]
  unfold NumericMatrix.row
  apply List.map_congr_left
  intro j hj
  rw [List.mem_range] at hj
  exact hcell i j hi (by omega)

/-! ## C1: the rate form of the majorant -/

/-- With `is_cumulative = false` every cell of the rate form is the zero it
was allocated with. -/
theorem lambda_maj_rate_branch (rate_maj range_t : NumericMatrix) (i j : ℕ) :
    (lambda_maj rate_maj false range_t).cell i j = Val.fin 0 := by
  simp [lambda_maj, NumericMatrix.zeros, NumericMatrix.filled]

/-- C1 (code defect): with `is_cumulative = false` the quotient is not taken
against the supplied rate.  One draw, one interval, supplied rate 2, range
`[0, 1]`, proposal `1/2`, true intensity 1, uniform `3/4`: the rate read on
source line 52 is 0 while the supplied rate is 2, the quotient is `+inf`, and
the candidate is accepted and returned although `1 / 2 > 3 / 4` is false. -/
theorem C1_rate_branch_divides_by_zero :
    rate2.cell 0 0 = Val.fin 2 ∧
    (scanCtx envHalf rate2 false range01 (Val.fin 0) false).lambda_maj.read envHalf.oob 0
      ((scanCtx envHalf rate2 false range01 (Val.fin 0) false).interval 0 0) = Val.fin 0 ∧
    (scanCtx envHalf rate2 false range01 (Val.fin 0) false).quotient 0 0 = Val.pinf ∧
    (scanCtx envHalf rate2 false range01 (Val.fin 0) false).accept 0 0 0 = true ∧
    Val.gt (Val.div (Val.fin 1) (Val.fin 2)) (Val.fin (3 / 4)) = false ∧
    (vdraw_intensity_step_regular envHalf rate2 false range01 (Val.fin 0) false).map
      NumericMatrix.toRows = some [[Val.fin (1 / 2)]] := by
  decide!

/-! ## C3: the accepted proposals, in order, then missing values -/

/-- C3: with `atmost1 = false`, valid shapes and a proposal matrix with at
least one column, the sampler returns, and in every row `draw` of the
result the first `k` slots are exactly the proposals of that draw whose
quotient `lambda_star / lambda_maj` is strictly greater than the uniform
drawn for them, in proposal order (`k` of them, all inside the returned
width), every later slot of the returned row is the missing sentinel, and a
candidate whose quotient equals its uniform is rejected. -/
theorem C3_row_is_accepted_then_missing (E : Env) (rate_maj : NumericMatrix)
    (is_cumulative : Bool) (range_t : NumericMatrix) (tol : Val)
    (hv : ValidInput rate_maj range_t)
    (hc : 0 < (scanCtx E rate_maj is_cumulative range_t tol false).Zstar.ncol) :
    ∃ out, vdraw_intensity_step_regular E rate_maj is_cumulative range_t tol false = some out ∧
      ∀ draw, draw < rate_maj.nrow →
        ((scanCtx E rate_maj is_cumulative range_t tol false).kept draw).length ≤ out.ncol ∧
        (∀ j, j < ((scanCtx E rate_maj is_cumulative range_t tol false).kept draw).length →
          some (out.cell draw j) =
            ((scanCtx E rate_maj is_cumulative range_t tol false).kept draw)[j]?) ∧
        (∀ j, ((scanCtx E rate_maj is_cumulative range_t tol false).kept draw).length ≤ j →
          j < out.ncol → out.cell draw j = Val.get_na) ∧
        (∀ ev k, (scanCtx E rate_maj is_cumulative range_t tol false).quotient draw ev =
            Val.fin (E.runif k) →
          (scanCtx E rate_maj is_cumulative range_t tol false).accept draw ev k = false) := by
  obtain ⟨out, hout, -, hcol, hcell⟩ :=
    vdraw_result E rate_maj is_cumulative range_t tol false hv
  have h1 : (scanCtx E rate_maj is_cumulative range_t tol false).atmost1 = false := rfl
  have hle := ScanCtx.sup_accepted_le (scanCtx E rate_maj is_cumulative range_t tol false)
    rate_maj.nrow
  refine ⟨out, hout, ?_⟩
  intro draw hd
  have hlen := ScanCtx.accepted_le_sup (scanCtx E rate_maj is_cumulative range_t tol false)
    rate_maj.nrow draw hd
  rw [ScanCtx.accepted_eq_kept _ h1] at hlen
  refine ⟨by omega, ?_, ?_, ?_⟩
  · intro j hj
    rw [hcell draw j hd (by omega), ScanCtx.accepted_eq_kept _ h1]
    simp [List.getD_eq_getElem?_getD, List.getElem?_eq_getElem hj]
  · intro j hj hjw
    rw [hcell draw j hd (by omega), ScanCtx.accepted_eq_kept _ h1]
    simp [List.getD_eq_getElem?_getD, List.getElem?_eq_none hj]
  · intro ev k hq
    have hE : (scanCtx E rate_maj is_cumulative range_t tol false).E = E := rfl
    simp [ScanCtx.accept, hq, hE, Val.gt]

/-- C3 at a concrete input: two draws over `[0, 2]` with two intervals of
rate 2, proposals `1/4, 3/2` and `1/2`, true intensity 1, uniform `1/4`. -/
theorem C3_witness :
    ∃ out, vdraw_intensity_step_regular envTwo cum24 true range02 (Val.fin 0) false = some out ∧
      ∀ draw, draw < cum24.nrow →
        ((scanCtx envTwo cum24 true range02 (Val.fin 0) false).kept draw).length ≤ out.ncol ∧
        (∀ j, j < ((scanCtx envTwo cum24 true range02 (Val.fin 0) false).kept draw).length →
          some (out.cell draw j) =
            ((scanCtx envTwo cum24 true range02 (Val.fin 0) false).kept draw)[j]?) ∧
        (∀ j, ((scanCtx envTwo cum24 true range02 (Val.fin 0) false).kept draw).length ≤ j →
          j < out.ncol → out.cell draw j = Val.get_na) ∧
        (∀ ev k, (scanCtx envTwo cum24 true range02 (Val.fin 0) false).quotient draw ev =
            Val.fin (envTwo.runif k) →
          (scanCtx envTwo cum24 true range02 (Val.fin 0) false).accept draw ev k = false) :=
  C3_row_is_accepted_then_missing envTwo cum24 true range02 (Val.fin 0)
    (by decide) (by decide)

/-! ## C4: the shape of the result -/

/-- C4 as stated fails: one draw, one interval, cumulative majorant 2 over
`[0, 1]` (rate 2), one proposal at `1/2` where the true intensity is 0,
uniform `1/2`.  The quotient is 0, nothing is accepted, the largest accepted
count is 0, and the result has one column. -/
theorem C4_counterexample_width_without_acceptance :
    (scanCtx envZero rate2 true range01 (Val.fin 0) false).quotient 0 0 = Val.fin 0 ∧
    (vdraw_intensity_step_regular envZero rate2 true range01 (Val.fin 0) false).map
      NumericMatrix.toRows = some [[Val.get_na]] ∧
    (vdraw_intensity_step_regular envZero rate2 true range01 (Val.fin 0) false).map
      NumericMatrix.ncol = some 1 ∧
    (Finset.range rate2.nrow).sup (fun d =>
      (scanCtx envZero rate2 true range01 (Val.fin 0) false).acceptedCount rate2.nrow d) = 0 := by
  decide!

/-- C4 (amended): with valid shapes the sampler returns a matrix with
exactly as many rows as `rate_maj` and `max 1 m` columns, where `m` is the
largest number of accepted events of a draw. -/
theorem C4_rows_and_width (E : Env) (rate_maj : NumericMatrix) (is_cumulative : Bool)
    (range_t : NumericMatrix) (tol : Val) (atmost1 : Bool) (hv : ValidInput rate_maj range_t) :
    ∃ out,
      vdraw_intensity_step_regular E rate_maj is_cumulative range_t tol atmost1 = some out ∧
      out.nrow = rate_maj.nrow ∧
      out.ncol = max 1 ((Finset.range rate_maj.nrow).sup (fun d =>
        (scanCtx E rate_maj is_cumulative range_t tol atmost1).acceptedCount rate_maj.nrow d)) := by
  obtain ⟨out, hout, hrow, hcol, -⟩ :=
    vdraw_result E rate_maj is_cumulative range_t tol atmost1 hv
  refine ⟨out, hout, hrow, ?_⟩
  simp only [ScanCtx.acceptedCount_eq]
  exact hcol

/-- C4 (amended) at a concrete input: two draws, two and one accepted
events. -/
theorem C4_witness :
    ∃ out, vdraw_intensity_step_regular envTwo cum24 true range02 (Val.fin 0) false = some out ∧
      out.nrow = cum24.nrow ∧
      out.ncol = max 1 ((Finset.range cum24.nrow).sup (fun d =>
        (scanCtx envTwo cum24 true range02 (Val.fin 0) false).acceptedCount cum24.nrow d)) :=
  C4_rows_and_width envTwo cum24 true range02 (Val.fin 0) false (by decide)

/-! ## C5: the interval lookup -/

/-- The index of source line 51 for a finite proposal `t` and a finite
non-zero duration `d`, when `⌊t / d⌋` fits in an `int`. -/
theorem interval_of_fin (C : ScanCtx) (draw ev : ℕ) (t d : ℚ) (hd : d ≠ 0)
    (hz : C.Zstar.cell draw ev = Val.fin t) (hdur : C.dur draw = Val.fin d)
    (hlo : -(2 : ℤ) ^ 31 ≤ ⌊t / d⌋) (hhi : ⌊t / d⌋ < (2 : ℤ) ^ 31) :
    C.interval draw ev = ⌊t / d⌋ := by
  have h1 : (if (0 : ℚ) ≤ ((⌊t / d⌋ : ℤ) : ℚ) then ⌊((⌊t / d⌋ : ℤ) : ℚ)⌋
      else ⌈((⌊t / d⌋ : ℤ) : ℚ)⌉) = ⌊t / d⌋ := by
    split_ifs <;> simp
  have hlo2 : (-2147483648 : ℤ) ≤ ⌊t / d⌋ := by norm_num at hlo; exact hlo
  have hhi2 : ⌊t / d⌋ < (2147483648 : ℤ) := by norm_num at hhi; exact hhi
  simp only [ScanCtx.interval, hz, hdur, Val.div, hd, if_false, Val.floor, toInt, h1]
  norm_num [hlo2, hhi2]

/-- When the range of a draw starts at 0, the index of source line 51 is the
partition interval that contains the proposal, and it lies inside the rate
matrix. -/
theorem interval_of_zero_start (E : Env) (rate_maj : NumericMatrix) (is_cumulative : Bool)
    (range_t : NumericMatrix) (tol : Val) (atmost1 : Bool) (draw ev : ℕ) (e t : ℚ)
    (hn : 0 < rate_maj.ncol) (hint : (rate_maj.ncol : ℤ) ≤ (2 : ℤ) ^ 31)
    (h0 : range_t.cell draw 0 = Val.fin 0) (h1 : range_t.cell draw 1 = Val.fin e)
    (hz : (scanCtx E rate_maj is_cumulative range_t tol atmost1).Zstar.cell draw ev = Val.fin t)
    (ht0 : 0 ≤ t) (ht1 : t < e) :
    0 ≤ (scanCtx E rate_maj is_cumulative range_t tol atmost1).interval draw ev ∧
    (scanCtx E rate_maj is_cumulative range_t tol atmost1).interval draw ev < rate_maj.ncol ∧
    (((scanCtx E rate_maj is_cumulative range_t tol atmost1).interval draw ev : ℤ) : ℚ) *
      (e / rate_maj.ncol) ≤ t ∧
    t < ((((scanCtx E rate_maj is_cumulative range_t tol atmost1).interval draw ev : ℤ) : ℚ)
      + 1) * (e / rate_maj.ncol) := by
  have he : 0 < e := lt_of_le_of_lt ht0 ht1
  have hnq : (0 : ℚ) < (rate_maj.ncol : ℚ) := by exact_mod_cast hn
  have hd : 0 < e / (rate_maj.ncol : ℚ) := div_pos he hnq
  have hdur : (scanCtx E rate_maj is_cumulative range_t tol atmost1).dur draw =
      Val.fin (e / (rate_maj.ncol : ℚ)) := by
    simp [scanCtx, interval_duration, h0, h1, Val.sub, Val.add, Val.neg, Val.div, hnq.ne']
  have hx0 : 0 ≤ t / (e / (rate_maj.ncol : ℚ)) := div_nonneg ht0 hd.le
  have hx1 : t / (e / (rate_maj.ncol : ℚ)) < (rate_maj.ncol : ℚ) := by
    rw [div_lt_iff₀ hd]
    calc t < e := ht1
      _ = (rate_maj.ncol : ℚ) * (e / (rate_maj.ncol : ℚ)) := by field_simp
  have hf0 : 0 ≤ ⌊t / (e / (rate_maj.ncol : ℚ))⌋ := Int.floor_nonneg.mpr hx0
  have hf1 : ⌊t / (e / (rate_maj.ncol : ℚ))⌋ < (rate_maj.ncol : ℤ) := by
    rw [Int.floor_lt]
    exact_mod_cast hx1
  have hidx := interval_of_fin (scanCtx E rate_maj is_cumulative range_t tol atmost1) draw ev t
    (e / (rate_maj.ncol : ℚ)) hd.ne' hz hdur (by omega) (by omega)
  rw [hidx]
  refine ⟨hf0, hf1, ?_, ?_⟩
  · have := Int.floor_le (t / (e / (rate_maj.ncol : ℚ)))
    rwa [le_div_iff₀ hd] at this
  · have := Int.lt_floor_add_one (t / (e / (rate_maj.ncol : ℚ)))
    rwa [div_lt_iff₀ hd] at this

/-- C5 (code defect): the index computed on source line 51 divides the
proposal time itself, not its offset from the start of the range.  One draw
over `[1, 3]` with two intervals (duration 1) and the proposal `5/2`, which
lies in partition interval 1 (`1 + 1 * 1 ≤ 5/2 < 1 + 2 * 1`): the computed
index is 2, outside the two columns of the rate matrix, and the read falls
outside `lambda_maj`. -/
theorem C5_interval_ignores_range_start :
    interval_duration range13 rate11.ncol 0 = Val.fin 1 ∧
    (scanCtx envLate rate11 false range13 (Val.fin 0) false).Zstar.cell 0 0 = Val.fin (5 / 2) ∧
    ((1 : ℚ) + 1 * 1 ≤ 5 / 2 ∧ (5 / 2 : ℚ) < 1 + 2 * 1) ∧
    (scanCtx envLate rate11 false range13 (Val.fin 0) false).interval 0 0 = 2 ∧
    ¬ ((scanCtx envLate rate11 false range13 (Val.fin 0) false).interval 0 0 < rate11.ncol) ∧
    (scanCtx envLate rate11 false range13 (Val.fin 0) false).lambda_maj.read envLate.oob 0
      ((scanCtx envLate rate11 false range13 (Val.fin 0) false).interval 0 0) = envLate.oob 2 := by
  decide!

/-! ## C6: the acceptance bound -/

/-- C6 (code defect): nothing in the scan tests a proposal for being
missing.  One draw, one interval, cumulative majorant 2 over `[0, 1]` (rate
2), a proposal row that is a single padding slot, the constant evaluator 2,
uniform `1/2`.  The interval index of the padding slot is whatever the
conversion of NaN to `int` yields (`idx`); the rate is read at that index,
inside the matrix (2) when the index is 0 and outside it (`junk`) otherwise;
and the slot counts as an accepted event exactly when 2 over that value
exceeds `1/2`, although the row has no non-missing proposal. -/
theorem C6_padding_slot_is_not_tested (idx : ℤ) (junk : Val) :
    (scanCtx (padEnv idx junk) rate2 true range01 (Val.fin 0) false).Zstar.cell 0 0 =
      Val.get_na ∧
    (scanCtx (padEnv idx junk) rate2 true range01 (Val.fin 0) false).lambda_star.cell 0 0 =
      Val.fin 2 ∧
    (scanCtx (padEnv idx junk) rate2 true range01 (Val.fin 0) false).interval 0 0 = idx ∧
    (scanCtx (padEnv idx junk) rate2 true range01 (Val.fin 0) false).quotient 0 0 =
      Val.div (Val.fin 2) (if 0 ≤ idx ∧ idx < 1 then Val.fin 2 else junk) ∧
    (scanCtx (padEnv idx junk) rate2 true range01 (Val.fin 0) false).acceptedCount
        rate2.nrow 0 =
      (if Val.gt (Val.div (Val.fin 2) (if 0 ≤ idx ∧ idx < 1 then Val.fin 2 else junk))
        (Val.fin (1 / 2)) then 1 else 0) ∧
    (nonMissing
      ((scanCtx (padEnv idx junk) rate2 true range01 (Val.fin 0) false).Zstar.row 0)).length
        = 0 := by
  have hz : (scanCtx (padEnv idx junk) rate2 true range01 (Val.fin 0) false).Zstar =
      NumericMatrix.ofRows [[Val.nan]] := rfl
  have hd : (scanCtx (padEnv idx junk) rate2 true range01 (Val.fin 0) false).dur 0 =
      Val.fin 1 := by
    show interval_duration range01 rate2.ncol 0 = Val.fin 1
    decide!
  have hm : ∀ j,
      (scanCtx (padEnv idx junk) rate2 true range01 (Val.fin 0) false).lambda_maj.read
        (padEnv idx junk).oob 0 j = (if 0 ≤ j ∧ j < 1 then Val.fin 2 else junk) := by
    intro j
    have h1 : (lambda_maj rate2 true range01).ncol = 1 := by decide!
    have h2 : (lambda_maj rate2 true range01).cell 0 0 = Val.fin 2 := by decide!
    show (lambda_maj rate2 true range01).read (fun _ => junk) 0 j = _
    unfold NumericMatrix.read
    rw [h1]
    by_cases hj : 0 ≤ j ∧ j < ((1 : ℕ) : ℤ)
    · have : j = 0 := by omega
      subst this
      simp [h2]
    · have hj' : ¬ (0 ≤ j ∧ j < 1) := by simpa using hj
      simp [hj']
  have hi : (scanCtx (padEnv idx junk) rate2 true range01 (Val.fin 0) false).interval 0 0 =
      idx := by
    simp [ScanCtx.interval, hz, hd, NumericMatrix.ofRows, Val.div, Val.floor, toInt, padEnv,
      scanCtx]
  have hE : (scanCtx (padEnv idx junk) rate2 true range01 (Val.fin 0) false).E.oob =
      (padEnv idx junk).oob := rfl
  have hq : (scanCtx (padEnv idx junk) rate2 true range01 (Val.fin 0) false).quotient 0 0 =
      Val.div (Val.fin 2) (if 0 ≤ idx ∧ idx < 1 then Val.fin 2 else junk) := by
    unfold ScanCtx.quotient
    rw [hi, hE, hm]
    rfl
  have hnm : (nonMissing ((NumericMatrix.ofRows [[Val.nan]]).row 0)).length = 0 := by decide
  refine ⟨rfl, rfl, hi, hq, ?_, hnm⟩
  rw [ScanCtx.acceptedCount_eq]
  simp only [ScanCtx.accepted, ScanCtx.seed]
  have hn : (scanCtx (padEnv idx junk) rate2 true range01 (Val.fin 0) false).Zstar.ncol = 1 :=
    rfl
  rw [hn]
  simp only [ScanCtx.accList, ScanCtx.accept, hq]
  have hr : (scanCtx (padEnv idx junk) rate2 true range01 (Val.fin 0) false).E.runif 0 =
      1 / 2 := rfl
  rw [hr]
  split_ifs <;> simp_all

/-- What the scan does guarantee about missing values: with valid shapes and
a proposal matrix with at least one column, every row of a returned result
has at most as many non-missing entries as the same row of the proposal
matrix has non-missing proposals, and a proposal slot for which the
evaluator returns the missing value is rejected whatever uniform is drawn
for it. -/
theorem non_missing_bound (E : Env) (rate_maj : NumericMatrix) (is_cumulative : Bool)
    (range_t : NumericMatrix) (tol : Val) (atmost1 : Bool) (hv : ValidInput rate_maj range_t)
    (hc : 0 < (scanCtx E rate_maj is_cumulative range_t tol atmost1).Zstar.ncol) :
    ∃ out,
      vdraw_intensity_step_regular E rate_maj is_cumulative range_t tol atmost1 = some out ∧
      ∀ draw, draw < rate_maj.nrow →
        (nonMissing (out.row draw)).length ≤
          (nonMissing
            ((scanCtx E rate_maj is_cumulative range_t tol atmost1).Zstar.row draw)).length ∧
        ∀ ev k,
          (scanCtx E rate_maj is_cumulative range_t tol atmost1).lambda_star.cell draw ev
            = Val.get_na →
          (scanCtx E rate_maj is_cumulative range_t tol atmost1).accept draw ev k = false := by
  obtain ⟨out, hout, hrow⟩ := vdraw_row E rate_maj is_cumulative range_t tol atmost1 hv hc
  refine ⟨out, hout, ?_⟩
  intro draw hd
  constructor
  · rw [hrow draw hd, nonMissing_append_replicate]
    exact List.Sublist.length_le
      ((ScanCtx.accepted_sublist_row _ draw).filter _)
  · intro ev k hna
    simp [ScanCtx.accept, ScanCtx.quotient, hna, Val.get_na, Val.div, Val.gt]

/-- The bound on non-missing entries at a concrete input: two draws, the
second with a padding slot at which the evaluator returns the missing value. -/
theorem non_missing_bound_at_two_draws :
    ∃ out, vdraw_intensity_step_regular envTwo cum24 true range02 (Val.fin 0) false
        = some out ∧
      ∀ draw, draw < cum24.nrow →
        (nonMissing (out.row draw)).length ≤
          (nonMissing
            ((scanCtx envTwo cum24 true range02 (Val.fin 0) false).Zstar.row draw)).length ∧
        ∀ ev k,
          (scanCtx envTwo cum24 true range02 (Val.fin 0) false).lambda_star.cell draw ev
            = Val.get_na →
          (scanCtx envTwo cum24 true range02 (Val.fin 0) false).accept draw ev k = false :=
  non_missing_bound envTwo cum24 true range02 (Val.fin 0) false
    (by decide) (by decide)

/-! ## C7: at most one event -/

/-- C7: with `atmost1 = true`, valid shapes and a proposal matrix with at
least one column, the sampler returns a matrix with exactly one column;
row `draw` holds the first proposal of that draw, in proposal order, whose
quotient is strictly greater than its uniform, or the missing sentinel when
there is none; and the scan of the draw stops there: it draws one uniform
per candidate up to and including the first accepted one, and none after. -/
theorem C7_at_most_one (E : Env) (rate_maj : NumericMatrix) (is_cumulative : Bool)
    (range_t : NumericMatrix) (tol : Val) (hv : ValidInput rate_maj range_t)
    (hc : 0 < (scanCtx E rate_maj is_cumulative range_t tol true).Zstar.ncol) :
    ∃ out, vdraw_intensity_step_regular E rate_maj is_cumulative range_t tol true = some out ∧
      out.ncol = 1 ∧
      ∀ draw, draw < rate_maj.nrow →
        out.cell draw 0 =
          (((scanCtx E rate_maj is_cumulative range_t tol true).firstAccepted draw
              ((scanCtx E rate_maj is_cumulative range_t tol true).after
                rate_maj.nrow draw).drawn).map
            ((scanCtx E rate_maj is_cumulative range_t tol true).Zstar.cell draw)).getD
              Val.get_na ∧
        ((scanCtx E rate_maj is_cumulative range_t tol true).after
            rate_maj.nrow (draw + 1)).drawn =
          ((scanCtx E rate_maj is_cumulative range_t tol true).after rate_maj.nrow draw).drawn +
            (match (scanCtx E rate_maj is_cumulative range_t tol true).firstAccepted draw
                ((scanCtx E rate_maj is_cumulative range_t tol true).after
                  rate_maj.nrow draw).drawn with
              | some ev => ev + 1
              | none => (scanCtx E rate_maj is_cumulative range_t tol true).Zstar.ncol) := by
  obtain ⟨out, hout, -, hcol, hcell⟩ :=
    vdraw_result E rate_maj is_cumulative range_t tol true hv
  have h1 : (scanCtx E rate_maj is_cumulative range_t tol true).atmost1 = true := rfl
  have hlen : ∀ i,
      ((scanCtx E rate_maj is_cumulative range_t tol true).accepted i).length ≤ 1 := by
    intro i
    rw [ScanCtx.accepted_eq_first _ h1]
    cases ((scanCtx E rate_maj is_cumulative range_t tol true).firstAccepted i
      ((scanCtx E rate_maj is_cumulative range_t tol true).seed i)) <;> simp
  have hsup : (Finset.range rate_maj.nrow).sup (fun i =>
      ((scanCtx E rate_maj is_cumulative range_t tol true).accepted i).length) ≤ 1 :=
    Finset.sup_le (fun i _ => hlen i)
  refine ⟨out, hout, by omega, ?_⟩
  intro draw hd
  constructor
  · rw [hcell draw 0 hd hc, ScanCtx.accepted_eq_first _ h1, ScanCtx.after_drawn]
    cases ((scanCtx E rate_maj is_cumulative range_t tol true).firstAccepted draw
      ((scanCtx E rate_maj is_cumulative range_t tol true).seed draw)) <;> simp
  · simp only [ScanCtx.after_drawn, ScanCtx.seed]
    rw [ScanCtx.used_eq_find _ h1]
    simp [ScanCtx.firstAccepted, ScanCtx.accept]

/-- C7 at a concrete input: two draws, uniform `1/4`, so both first proposals
are accepted. -/
theorem C7_witness :
    ∃ out, vdraw_intensity_step_regular envTwo cum24 true range02 (Val.fin 0) true
        = some out ∧
      out.ncol = 1 ∧
      ∀ draw, draw < cum24.nrow →
        out.cell draw 0 =
          (((scanCtx envTwo cum24 true range02 (Val.fin 0) true).firstAccepted draw
              ((scanCtx envTwo cum24 true range02 (Val.fin 0) true).after
                cum24.nrow draw).drawn).map
            ((scanCtx envTwo cum24 true range02 (Val.fin 0) true).Zstar.cell draw)).getD
              Val.get_na ∧
        ((scanCtx envTwo cum24 true range02 (Val.fin 0) true).after
            cum24.nrow (draw + 1)).drawn =
          ((scanCtx envTwo cum24 true range02 (Val.fin 0) true).after
              cum24.nrow draw).drawn +
            (match (scanCtx envTwo cum24 true range02 (Val.fin 0) true).firstAccepted draw
                ((scanCtx envTwo cum24 true range02 (Val.fin 0) true).after
                  cum24.nrow draw).drawn with
              | some ev => ev + 1
              | none => (scanCtx envTwo cum24 true range02 (Val.fin 0) true).Zstar.ncol) :=
  C7_at_most_one envTwo cum24 true range02 (Val.fin 0) (by decide) (by decide)

/-! ## C8: ordering -/

/-- C8: with valid shapes the sampler returns, and when the non-missing
entries of every row of the proposal matrix are strictly
increasing, so are the non-missing entries of every row of the result. -/
theorem C8_rows_strictly_increasing (E : Env) (rate_maj : NumericMatrix)
    (is_cumulative : Bool) (range_t : NumericMatrix) (tol : Val) (atmost1 : Bool)
    (hv : ValidInput rate_maj range_t)
    (hs : ∀ draw, draw < rate_maj.nrow →
      (nonMissing
        ((scanCtx E rate_maj is_cumulative range_t tol atmost1).Zstar.row draw)).Pairwise Val.lt) :
    ∃ out,
      vdraw_intensity_step_regular E rate_maj is_cumulative range_t tol atmost1 = some out ∧
      ∀ draw, draw < rate_maj.nrow → (nonMissing (out.row draw)).Pairwise Val.lt := by
  by_cases hc : 0 < (scanCtx E rate_maj is_cumulative range_t tol atmost1).Zstar.ncol
  · obtain ⟨out, hout, hrow⟩ := vdraw_row E rate_maj is_cumulative range_t tol atmost1 hv hc
    refine ⟨out, hout, ?_⟩
    intro draw hd
    rw [hrow draw hd, nonMissing_append_replicate]
    exact (hs draw hd).sublist ((ScanCtx.accepted_sublist_row _ draw).filter _)
  · obtain ⟨out, hout, -, hcol, -⟩ :=
      vdraw_result E rate_maj is_cumulative range_t tol atmost1 hv
    have hle := ScanCtx.sup_accepted_le (scanCtx E rate_maj is_cumulative range_t tol atmost1)
      rate_maj.nrow
    have h1 : out.ncol = 1 := by omega
    refine ⟨out, hout, ?_⟩
    intro draw _
    have hr : List.range 1 = [0] := rfl
    simp only [NumericMatrix.row, h1, nonMissing, hr, List.map_cons, List.map_nil,
      List.filter_cons, List.filter_nil]
    cases (out.cell draw 0).isMissing <;> simp

/-- C8 at a concrete input: two draws with increasing proposals. -/
theorem C8_witness :
    ∃ out, vdraw_intensity_step_regular envTwo cum24 true range02 (Val.fin 0) false
        = some out ∧
      ∀ draw, draw < cum24.nrow → (nonMissing (out.row draw)).Pairwise Val.lt :=
  C8_rows_strictly_increasing envTwo cum24 true range02 (Val.fin 0) false
    (by decide) (by decide!)

/-! ## C2: an exact majorant -/

theorem getD_of_all_missing (L : List Val) (h : ∀ x ∈ L, x = Val.get_na) (j : ℕ) :
    L.getD j Val.get_na = Val.get_na := by
  by_cases hj : j < L.length
  · rw [List.getD_eq_getElem _ _ hj]
    exact h _ (List.getElem_mem hj)
  · simp [List.getD_eq_getElem?_getD, List.getElem?_eq_none (Nat.le_of_not_lt hj)]

namespace ScanCtx

/-- When every non-missing candidate is accepted and missing candidates only
follow non-missing ones, the accepted list read slot by slot is the row of
proposals. -/
theorem accList_getD_of_padded (C : ScanCtx) (h1 : C.atmost1 = false) (draw n : ℕ) :
    ∀ (ev k : ℕ),
      (∀ t, t < n → C.Zstar.cell draw (ev + t) ≠ Val.get_na →
        C.accept draw (ev + t) (k + t) = true) →
      (∀ t t', t ≤ t' → t' < n → C.Zstar.cell draw (ev + t) = Val.get_na →
        C.Zstar.cell draw (ev + t') = Val.get_na) →
      ∀ j, j < n → (accList C draw n ev k).getD j Val.get_na = C.Zstar.cell draw (ev + j) := by
  induction n with
  | zero => intro ev k _ _ j hj; omega
  | succ n ih =>
    intro ev k hacc hpad j hj
    simp only [accList, h1, Bool.false_eq_true, if_false]
    by_cases ha : C.accept draw ev k = true
    · simp only [ha, if_true]
      cases j with
      | zero => simp
      | succ j =>
        rw [List.getD_cons_succ]
        have := ih (ev + 1) (k + 1)
          (fun t ht hne => by
            have := hacc (t + 1) (by omega) (by rwa [← Nat.add_assoc, Nat.add_right_comm] )
            rwa [← Nat.add_assoc, Nat.add_right_comm, ← Nat.add_assoc k, Nat.add_right_comm k]
              at this)
          (fun t t' htt ht' hna => by
            have := hpad (t + 1) (t' + 1) (by omega) (by omega)
              (by rwa [← Nat.add_assoc, Nat.add_right_comm])
            rwa [← Nat.add_assoc, Nat.add_right_comm] at this)
          j (by omega)
        rw [this, Nat.add_assoc, Nat.add_comm 1 j]
    · simp only [ha, if_false, Bool.false_eq_true]
      have h0 : C.Zstar.cell draw ev = Val.get_na := by
        by_contra hne
        exact ha (by simpa using hacc 0 (by omega) (by simpa using hne))
      have hall : ∀ t, t < n + 1 → C.Zstar.cell draw (ev + t) = Val.get_na := fun t ht =>
        hpad 0 t (by omega) ht (by simpa using h0)
      rw [hall j hj]
      apply getD_of_all_missing
      intro x hx
      have hsub := (accList_sublist C draw n (ev + 1) (k + 1)).subset hx
      rw [List.mem_map] at hsub
      obtain ⟨t, ht, rfl⟩ := hsub
      rw [List.mem_range] at ht
      have := hall (t + 1) (by omega)
      rwa [← Nat.add_assoc, Nat.add_right_comm] at this

theorem accList_length_of_all (C : ScanCtx) (h1 : C.atmost1 = false) (draw n : ℕ) :
    ∀ (ev k : ℕ), (∀ t, t < n → C.accept draw (ev + t) (k + t) = true) →
      (accList C draw n ev k).length = n := by
  induction n with
  | zero => intro ev k _; simp [accList]
  | succ n ih =>
    intro ev k h
    have h0 : C.accept draw ev k = true := by simpa using h 0 (by omega)
    simp only [accList, h1, h0, if_true, Bool.false_eq_true, if_false, List.length_cons]
    rw [ih (ev + 1) (k + 1) (fun t ht => by
      have := h (t + 1) (by omega)
      rwa [← Nat.add_assoc, Nat.add_right_comm, ← Nat.add_assoc k, Nat.add_right_comm k]
        at this)]

end ScanCtx

/-- With `is_cumulative = false`, a candidate whose interval index lies
inside the rate matrix and whose true intensity is positive is accepted
whatever uniform is drawn: the quotient is taken against the zero left in
`lambda_maj` and is `+inf`. -/
theorem accept_of_positive (E : Env) (rate_maj range_t : NumericMatrix) (tol : Val)
    (atmost1 : Bool) (draw ev k : ℕ)
    (h0 : 0 ≤ (scanCtx E rate_maj false range_t tol atmost1).interval draw ev)
    (hlt : (scanCtx E rate_maj false range_t tol atmost1).interval draw ev < rate_maj.ncol)
    (hpos : Val.gt ((scanCtx E rate_maj false range_t tol atmost1).lambda_star.cell draw ev)
      (Val.fin 0) = true) :
    (scanCtx E rate_maj false range_t tol atmost1).accept draw ev k = true := by
  have hm : (scanCtx E rate_maj false range_t tol atmost1).lambda_maj =
      lambda_maj rate_maj false range_t := rfl
  have hw : (lambda_maj rate_maj false range_t).ncol = rate_maj.ncol := by
    simp [lambda_maj, NumericMatrix.zeros, NumericMatrix.filled]
  have hread : (scanCtx E rate_maj false range_t tol atmost1).lambda_maj.read
      (scanCtx E rate_maj false range_t tol atmost1).E.oob draw
      ((scanCtx E rate_maj false range_t tol atmost1).interval draw ev) = Val.fin 0 := by
    rw [hm]
    simp only [NumericMatrix.read, hw, h0, hlt, and_self, if_true]
    exact lambda_maj_rate_branch rate_maj range_t _ _
  unfold ScanCtx.accept ScanCtx.quotient
  rw [hread]
  cases hls : (scanCtx E rate_maj false range_t tol atmost1).lambda_star.cell draw ev with
  | fin a =>
    rw [hls] at hpos
    have ha : 0 < a := by simpa [Val.gt] using hpos
    simp [Val.div, Val.gt, ha]
  | pinf => simp [Val.div, Val.gt]
  | ninf => rw [hls] at hpos; simp [Val.gt] at hpos
  | nan => rw [hls] at hpos; simp [Val.gt] at hpos

/-- What holds of an exact majorant where the read of line 52 stays inside
the matrix: `is_cumulative = false`, `atmost1 = false`, valid shapes, and a
proposal matrix that follows the shape conventions of the proposal sampler
(one row per draw, at least one column, rows right-padded with the missing
sentinel, and no wider than its fullest row unless it is a single column).
When at every non-missing proposal the interval index lies inside the rate
matrix and the evaluator returns exactly the supplied majorizing rate there,
a positive value, then the sampler returns, every non-missing proposal is
accepted, and the result equals the proposal matrix.  The quotient is taken
against the zero left in `lambda_maj`, so no assumption on the uniforms is
needed. -/
theorem exact_majorant_inside_matrix (E : Env) (rate_maj range_t : NumericMatrix)
    (tol : Val) (hv : ValidInput rate_maj range_t)
    (hrows : (scanCtx E rate_maj false range_t tol false).Zstar.nrow = rate_maj.nrow)
    (hc : 0 < (scanCtx E rate_maj false range_t tol false).Zstar.ncol)
    (hpad : ∀ draw, draw < rate_maj.nrow →
      ∀ j', j' < (scanCtx E rate_maj false range_t tol false).Zstar.ncol → ∀ j, j ≤ j' →
      (scanCtx E rate_maj false range_t tol false).Zstar.cell draw j = Val.get_na →
      (scanCtx E rate_maj false range_t tol false).Zstar.cell draw j' = Val.get_na)
    (hwidth : (scanCtx E rate_maj false range_t tol false).Zstar.ncol = 1 ∨
      ∃ draw, draw < rate_maj.nrow ∧
        (scanCtx E rate_maj false range_t tol false).Zstar.cell draw
          ((scanCtx E rate_maj false range_t tol false).Zstar.ncol - 1) ≠ Val.get_na)
    (hexact : ∀ draw, draw < rate_maj.nrow →
      ∀ ev, ev < (scanCtx E rate_maj false range_t tol false).Zstar.ncol →
      (scanCtx E rate_maj false range_t tol false).Zstar.cell draw ev ≠ Val.get_na →
        0 ≤ (scanCtx E rate_maj false range_t tol false).interval draw ev ∧
        (scanCtx E rate_maj false range_t tol false).interval draw ev < rate_maj.ncol ∧
        (scanCtx E rate_maj false range_t tol false).lambda_star.cell draw ev =
          rate_maj.cell draw
            ((scanCtx E rate_maj false range_t tol false).interval draw ev).toNat ∧
        Val.gt (rate_maj.cell draw
          ((scanCtx E rate_maj false range_t tol false).interval draw ev).toNat)
          (Val.fin 0) = true) :
    ∃ out, vdraw_intensity_step_regular E rate_maj false range_t tol false = some out ∧
      (∀ draw, draw < rate_maj.nrow →
        ∀ ev, ev < (scanCtx E rate_maj false range_t tol false).Zstar.ncol →
        (scanCtx E rate_maj false range_t tol false).Zstar.cell draw ev ≠ Val.get_na →
        (scanCtx E rate_maj false range_t tol false).accept draw ev
          (draw * (scanCtx E rate_maj false range_t tol false).Zstar.ncol + ev) = true) ∧
      out.Same (scanCtx E rate_maj false range_t tol false).Zstar := by
  have h1 : (scanCtx E rate_maj false range_t tol false).atmost1 = false := rfl
  have hacc : ∀ draw, draw < rate_maj.nrow →
      ∀ ev, ev < (scanCtx E rate_maj false range_t tol false).Zstar.ncol →
      (scanCtx E rate_maj false range_t tol false).Zstar.cell draw ev ≠ Val.get_na →
      ∀ k, (scanCtx E rate_maj false range_t tol false).accept draw ev k = true := by
    intro draw hd ev hev hne k
    obtain ⟨h0, hlt, hls, hpos⟩ := hexact draw hd ev hev hne
    exact accept_of_positive E rate_maj range_t tol false draw ev k h0 hlt (by rw [hls]; exact hpos)
  obtain ⟨out, hout, hrow, hcol, hcell⟩ := vdraw_result E rate_maj false range_t tol false hv
  have hle := ScanCtx.sup_accepted_le (scanCtx E rate_maj false range_t tol false) rate_maj.nrow
  refine ⟨out, hout, fun draw hd ev hev hne => hacc draw hd ev hev hne _, ?_, ?_, ?_⟩
  · rw [hrow, hrows]
  · rcases hwidth with hw | ⟨draw, hd, hlast⟩
    · omega
    · have hall : ∀ t, t < (scanCtx E rate_maj false range_t tol false).Zstar.ncol →
          (scanCtx E rate_maj false range_t tol false).Zstar.cell draw t ≠ Val.get_na := by
        intro t ht hna
        exact hlast (hpad draw hd _ (by omega) t (by omega) hna)
      have hlen : ((scanCtx E rate_maj false range_t tol false).accepted draw).length =
          (scanCtx E rate_maj false range_t tol false).Zstar.ncol := by
        apply ScanCtx.accList_length_of_all _ h1
        intro t ht
        simpa using hacc draw hd t ht (hall t ht) _
      have := ScanCtx.accepted_le_sup (scanCtx E rate_maj false range_t tol false)
        rate_maj.nrow draw hd
      omega
  · intro i hi j hj
    rw [hrow] at hi
    have hjw : j < (scanCtx E rate_maj false range_t tol false).Zstar.ncol := by omega
    rw [hcell i j hi hjw]
    have := ScanCtx.accList_getD_of_padded (scanCtx E rate_maj false range_t tol false) h1 i
      (scanCtx E rate_maj false range_t tol false).Zstar.ncol 0
      ((scanCtx E rate_maj false range_t tol false).seed i)
      (fun t ht hne => by simpa using hacc i hi t ht (by simpa using hne) _)
      (fun t t' htt ht' hna => by simpa using hpad i hi t' ht' t htt (by simpa using hna))
      j hjw
    simpa [ScanCtx.accepted] using this

/-- The scenario of the specification: one draw, one interval, rate 2, range
`[0, 1]`, true intensity 2 at both proposals `1/4` and `3/4`. -/
theorem exact_majorant_inside_matrix_at_scenario :
    ∃ out, vdraw_intensity_step_regular envExact rate2 false range01 (Val.fin 0) false
        = some out ∧
      (∀ draw, draw < rate2.nrow →
        ∀ ev, ev < (scanCtx envExact rate2 false range01 (Val.fin 0) false).Zstar.ncol →
        (scanCtx envExact rate2 false range01 (Val.fin 0) false).Zstar.cell draw ev
          ≠ Val.get_na →
        (scanCtx envExact rate2 false range01 (Val.fin 0) false).accept draw ev
          (draw * (scanCtx envExact rate2 false range01 (Val.fin 0) false).Zstar.ncol
            + ev) = true) ∧
      out.Same (scanCtx envExact rate2 false range01 (Val.fin 0) false).Zstar :=
  exact_majorant_inside_matrix envExact rate2 range01 (Val.fin 0)
    (by decide) (by decide) (by decide) (by decide!) (by decide!) (by decide!)

/-- C2 (code defect): one draw over `[1, 3]` with two intervals of rate 1
(`is_cumulative = false`, `atmost1 = false`), the proposal `5/2`, which lies
in interval 1, an evaluator that returns the supplied rate 1 there (the
majorant is exact), uniform `1/2`.  The index computed on source line 51 is
2, so line 52 divides by whatever lies behind the two columns of `lambda_maj`
(`junk`): the proposal is kept exactly when `1 / junk > 1/2`, and is dropped,
for instance, when that value is NaN, so that the result is not the proposal
matrix. -/
theorem C2_exact_majorant_read_outside_matrix (junk : Val) :
    rate11.cell 0 1 = Val.fin 1 ∧
    (scanCtx (lateEnv junk) rate11 false range13 (Val.fin 0) false).Zstar.toRows =
      [[Val.fin (5 / 2)]] ∧
    (scanCtx (lateEnv junk) rate11 false range13 (Val.fin 0) false).lambda_star.cell 0 0 =
      Val.fin 1 ∧
    (scanCtx (lateEnv junk) rate11 false range13 (Val.fin 0) false).interval 0 0 = 2 ∧
    (scanCtx (lateEnv junk) rate11 false range13 (Val.fin 0) false).quotient 0 0 =
      Val.div (Val.fin 1) junk ∧
    (∃ out, vdraw_intensity_step_regular (lateEnv junk) rate11 false range13 (Val.fin 0) false
        = some out ∧ out.nrow = 1 ∧ out.ncol = 1 ∧
      out.cell 0 0 =
        if Val.gt (Val.div (Val.fin 1) junk) (Val.fin (1 / 2)) then Val.fin (5 / 2)
        else Val.get_na) ∧
    (vdraw_intensity_step_regular (lateEnv Val.nan) rate11 false range13 (Val.fin 0) false).map
      NumericMatrix.toRows = some [[Val.get_na]] := by
  have hzr : (NumericMatrix.ofRows [[Val.fin (5 / 2)]]).toRows = [[Val.fin (5 / 2)]] := by
    decide!
  have hi : (scanCtx (lateEnv junk) rate11 false range13 (Val.fin 0) false).interval 0 0 = 2 := by
    show toInt (fun _ => -(2 : ℤ) ^ 31) (Val.floor (Val.div (Val.fin (5 / 2))
      (interval_duration range13 rate11.ncol 0))) = 2
    decide!
  have hq : (scanCtx (lateEnv junk) rate11 false range13 (Val.fin 0) false).quotient 0 0 =
      Val.div (Val.fin 1) junk := by
    unfold ScanCtx.quotient
    rw [hi]
    rfl
  have hlast : (vdraw_intensity_step_regular (lateEnv Val.nan) rate11 false range13 (Val.fin 0)
      false).map NumericMatrix.toRows = some [[Val.get_na]] := by decide!
  refine ⟨rfl, hzr, rfl, hi, hq, ?_, hlast⟩
  obtain ⟨out, hout, hrow, hcol, hcell⟩ := vdraw_result (lateEnv junk) rate11 false range13
    (Val.fin 0) false (by decide)
  have hn : (scanCtx (lateEnv junk) rate11 false range13 (Val.fin 0) false).Zstar.ncol = 1 := rfl
  have hle := ScanCtx.sup_accepted_le (scanCtx (lateEnv junk) rate11 false range13 (Val.fin 0)
    false) rate11.nrow
  refine ⟨out, hout, hrow, by omega, ?_⟩
  rw [hcell 0 0 (by decide) (by rw [hn]; decide)]
  simp only [ScanCtx.accepted, ScanCtx.seed, hn, ScanCtx.accList, ScanCtx.accept, hq]
  have hr : (scanCtx (lateEnv junk) rate11 false range13 (Val.fin 0) false).E.runif 0 = 1 / 2 :=
    rfl
  have hc : (scanCtx (lateEnv junk) rate11 false range13 (Val.fin 0) false).Zstar.cell 0 0 =
      Val.fin (5 / 2) := rfl
  rw [hr, hc]
  split_ifs <;> simp_all

/-! ## The inversion sampler: loop invariants -/

theorem fillFrom_Tau (u : ℕ → ℚ) (n : ℕ) : ∀ (ev : ℕ) (st : TauState),
    (fillFrom u n ev st).Tau = st.Tau := by
  induction n with
  | zero => intro ev st; rfl
  | succ n ih => intro ev st; simp [fillFrom, ih]

theorem fillFrom_drawn (u : ℕ → ℚ) (n : ℕ) : ∀ (ev : ℕ) (st : TauState),
    (fillFrom u n ev st).drawn = st.drawn + n := by
  induction n with
  | zero => intro ev st; rfl
  | succ n ih => intro ev st; simp [fillFrom, ih]; omega

theorem fillFrom_length (u : ℕ → ℚ) (n : ℕ) : ∀ (ev : ℕ) (st : TauState),
    (fillFrom u n ev st).tmp.length = st.tmp.length := by
  induction n with
  | zero => intro ev st; rfl
  | succ n ih => intro ev st; simp [fillFrom, ih]

/-- After the fill loop, slots `ev .. ev+n-1` of `tmp` hold the next `n`
uniforms of the stream and every other slot is unchanged. -/
theorem fillFrom_tmp_at (u : ℕ → ℚ) (n : ℕ) : ∀ (ev : ℕ) (st : TauState) (i : ℕ),
    (fillFrom u n ev st).tmp[i]? =
      if ev ≤ i ∧ i < ev + n ∧ i < st.tmp.length then some (u (st.drawn + (i - ev)))
      else st.tmp[i]? := by
  induction n with
  | zero =>
    intro ev st i
    have : ¬ (ev ≤ i ∧ i < ev ∧ i < st.tmp.length) := by omega
    simp [fillFrom, this]
  | succ n ih =>
    intro ev st i
    simp only [fillFrom, ih, List.length_set, List.getElem?_set]
    by_cases h1 : ev = i
    · subst h1
      have h2 : ¬ (ev + 1 ≤ ev ∧ ev < ev + 1 + n ∧ ev < st.tmp.length) := by omega
      by_cases h3 : ev < st.tmp.length
      · have h4 : ev ≤ ev ∧ ev < ev + (n + 1) ∧ ev < st.tmp.length :=
          ⟨le_refl _, by omega, h3⟩
        simp [h2, h3, h4]
      · have h4 : ¬ (ev ≤ ev ∧ ev < ev + (n + 1) ∧ ev < st.tmp.length) := by omega
        simp [h2, h3, h4, List.getElem?_eq_none (Nat.le_of_not_lt h3)]
    · by_cases h5 : ev + 1 ≤ i ∧ i < ev + 1 + n ∧ i < st.tmp.length
      · have h6 : ev ≤ i ∧ i < ev + (n + 1) ∧ i < st.tmp.length := by omega
        have h7 : st.drawn + 1 + (i - (ev + 1)) = st.drawn + (i - ev) := by omega
        simp [h5, h6, h7]
      · have h6 : ¬ (ev ≤ i ∧ i < ev + (n + 1) ∧ i < st.tmp.length) := by omega
        simp [h5, h6, h1]

theorem fillFrom_take (u : ℕ → ℚ) (n : ℕ) (st : TauState) (h : n ≤ st.tmp.length) :
    (fillFrom u n 0 st).tmp.take n = (List.range n).map (fun t => u (st.drawn + t)) := by
  apply List.ext_getElem?
  intro i
  rw [List.getElem?_take, fillFrom_tmp_at]
  by_cases hi : i < n
  · have h2 : 0 ≤ i ∧ i < 0 + n ∧ i < st.tmp.length := by omega
    simp [hi, h2, List.getElem?_range hi]
  · have h3 : (List.range n)[i]? = none :=
      List.getElem?_eq_none (by simpa using Nat.le_of_not_lt hi)
    simp [hi, h3]

theorem fillFrom_drop (u : ℕ → ℚ) (n : ℕ) (st : TauState) :
    (fillFrom u n 0 st).tmp.drop n = st.tmp.drop n := by
  apply List.ext_getElem?
  intro i
  rw [List.getElem?_drop, List.getElem?_drop, fillFrom_tmp_at]
  have h2 : ¬ (0 ≤ n + i ∧ n + i < 0 + n ∧ n + i < st.tmp.length) := by omega
  simp [h2]

theorem tmpRead_append_left (oob : ℤ → Val) (A B : List ℚ) (j : ℕ) (h : j < A.length) :
    tmpRead oob (A ++ B) j = Val.fin (A.getD j 0) := by
  simp [tmpRead, List.getElem?_append_left h, List.getD_eq_getElem?_getD,
    List.getElem?_eq_getElem h]

theorem tauFrom_tmp (oob : ℤ → Val) (total : Val) (r n : ℕ) : ∀ (ev : ℕ) (st : TauState),
    (tauFrom oob total r n ev st).tmp = st.tmp ∧
      (tauFrom oob total r n ev st).drawn = st.drawn ∧
      (tauFrom oob total r n ev st).Tau.nrow = st.Tau.nrow ∧
      (tauFrom oob total r n ev st).Tau.ncol = st.Tau.ncol := by
  induction n with
  | zero => intro ev st; simp [tauFrom]
  | succ n ih => intro ev st; simp [tauFrom, ih, NumericMatrix.set]

theorem tauFrom_cell (oob : ℤ → Val) (total : Val) (r n : ℕ) :
    ∀ (ev : ℕ) (st : TauState) (i j : ℕ),
      (tauFrom oob total r n ev st).Tau.cell i j =
        if i = r ∧ ev ≤ j ∧ j < ev + n then Val.mul (tmpRead oob st.tmp j) total
        else st.Tau.cell i j := by
  induction n with
  | zero =>
    intro ev st i j
    have : ¬ (i = r ∧ ev ≤ j ∧ j < ev) := by omega
    simp [tauFrom, this]
  | succ n ih =>
    intro ev st i j
    simp only [tauFrom, ih, NumericMatrix.set]
    by_cases h1 : i = r ∧ j = ev
    · obtain ⟨rfl, rfl⟩ := h1
      have h2 : ¬ (i = i ∧ j + 1 ≤ j ∧ j < j + 1 + n) := by omega
      have h3 : i = i ∧ j ≤ j ∧ j < j + (n + 1) := ⟨rfl, le_refl _, by omega⟩
      simp [h2, h3]
    · by_cases h4 : i = r ∧ ev + 1 ≤ j ∧ j < ev + 1 + n
      · have h5 : i = r ∧ ev ≤ j ∧ j < ev + (n + 1) := ⟨h4.1, by omega, by omega⟩
        simp [h4, h5]
      · have h5 : ¬ (i = r ∧ ev ≤ j ∧ j < ev + (n + 1)) := by
          rintro ⟨h6, h7, h8⟩
          by_cases h9 : j = ev
          · exact h1 ⟨h6, h9⟩
          · exact h4 ⟨h6, by omega, by omega⟩
        simp [h4, h5, h1]

theorem sortPrefix_length (tmp : List ℚ) (n : ℕ) : (sortPrefix tmp n).length = tmp.length := by
  simp only [sortPrefix, List.length_append, List.length_insertionSort, List.length_take,
    List.length_drop]
  omega

theorem minElement_of_take (oob : ℤ → Val) (tmp : List ℚ) (n : ℕ) (h : tmp.take n ≠ []) :
    minElement oob tmp n = Val.fin (minOf (tmp.take n)) := by
  unfold minElement
  cases hl : tmp.take n with
  | nil => exact absurd hl h
  | cons x xs => simp [minOf]

/-- What one iteration of the loop over draws leaves alone: it draws as many
uniforms as the count of the draw, keeps the length of `tmp` and the shape
of `Tau`, and writes to no other row of `Tau`. -/
theorem rowStep_frame (E : InvEnv) (counts : List ℕ) (tot : ℕ → Val) (atmost1 : Bool)
    (r : ℕ) (st : TauState) :
    (rowStep E counts tot atmost1 r st).drawn = st.drawn + counts.getD r 0 ∧
    (rowStep E counts tot atmost1 r st).tmp.length = st.tmp.length ∧
    (rowStep E counts tot atmost1 r st).Tau.nrow = st.Tau.nrow ∧
    (rowStep E counts tot atmost1 r st).Tau.ncol = st.Tau.ncol ∧
    ∀ i j, i ≠ r → (rowStep E counts tot atmost1 r st).Tau.cell i j = st.Tau.cell i j := by
  cases atmost1 with
  | true =>
    simp only [rowStep, if_true, fillFrom_drawn, fillFrom_length, fillFrom_Tau,
      NumericMatrix.set, true_and]
    intro i j hi
    simp [hi]
  | false =>
    simp only [rowStep, Bool.false_eq_true, if_false, tauFrom_tmp, tauFrom_cell,
      fillFrom_drawn, fillFrom_length, fillFrom_Tau, sortPrefix_length, true_and]
    intro i j hi
    simp [hi]

/-- Without at-most-one, slot `j` of row `r` of `Tau` receives the `j`-th
smallest of the uniforms drawn for `r`, times the total of `r`. -/
theorem rowStep_cell_sorted (E : InvEnv) (counts : List ℕ) (tot : ℕ → Val) (r : ℕ)
    (st : TauState) (h : counts.getD r 0 ≤ st.tmp.length) (j : ℕ) :
    (rowStep E counts tot false r st).Tau.cell r j =
      if j < counts.getD r 0 then
        Val.mul (Val.fin ((((List.range (counts.getD r 0)).map
          (fun t => E.runif (st.drawn + t))).insertionSort (fun a b => a ≤ b)).getD j 0)) (tot r)
      else st.Tau.cell r j := by
  simp only [rowStep, Bool.false_eq_true, if_false, tauFrom_cell, fillFrom_Tau, sortPrefix,
    fillFrom_take E.runif _ st h, fillFrom_drop, true_and, Nat.zero_le, Nat.zero_add]
  split_ifs with hj
  · rw [tmpRead_append_left _ _ _ _ (by simpa [List.length_insertionSort] using hj)]
  · rfl

/-- With at-most-one, slot 0 of row `r` of `Tau` receives the smallest of
the uniforms drawn for `r`, times the total of `r`. -/
theorem rowStep_cell_min (E : InvEnv) (counts : List ℕ) (tot : ℕ → Val) (r : ℕ)
    (st : TauState) (h : counts.getD r 0 ≤ st.tmp.length) (h1 : 1 ≤ counts.getD r 0) :
    (rowStep E counts tot true r st).Tau.cell r 0 =
      Val.mul (Val.fin (minOf ((List.range (counts.getD r 0)).map
        (fun t => E.runif (st.drawn + t))))) (tot r) := by
  have hne : (fillFrom E.runif (counts.getD r 0) 0 st).tmp.take (counts.getD r 0) ≠ [] := by
    rw [fillFrom_take E.runif _ st h]
    intro hnil
    have := congrArg List.length hnil
    simp only [List.length_map, List.length_range, List.length_nil] at this
    omega
  simp only [rowStep, if_true, NumericMatrix.set, and_self]
  rw [minElement_of_take _ _ _ hne, fillFrom_take E.runif _ st h]

theorem getD_le_foldr_max (l : List ℕ) : ∀ (r : ℕ), l.getD r 0 ≤ l.foldr max 0 := by
  induction l with
  | nil => intro r; simp
  | cons x xs ih =>
    intro r
    cases r with
    | zero => simp
    | succ r =>
      have := ih r
      simp only [List.getD_cons_succ, List.foldr_cons]
      omega

theorem offset_succ (counts : List ℕ) (r : ℕ) :
    offset counts (r + 1) = offset counts r + counts.getD r 0 := by
  unfold offset
  rw [List.take_succ, List.sum_append]
  by_cases h : r < counts.length
  · simp [List.getD_eq_getElem?_getD, List.getElem?_eq_getElem h]
  · simp [List.getD_eq_getElem?_getD, List.getElem?_eq_none (Nat.le_of_not_lt h)]

theorem rowsFrom_succ (E : InvEnv) (counts : List ℕ) (tot : ℕ → Val) (atmost1 : Bool)
    (n : ℕ) : ∀ (r : ℕ) (st : TauState),
    rowsFrom E counts tot atmost1 (n + 1) r st =
      rowStep E counts tot atmost1 (r + n) (rowsFrom E counts tot atmost1 n r st) := by
  induction n with
  | zero => intro r st; simp [rowsFrom]
  | succ n ih =>
    intro r st
    rw [rowsFrom, ih (r + 1) (rowStep E counts tot atmost1 r st)]
    have : r + 1 + n = r + (n + 1) := by omega
    rw [this]
    rfl

theorem tauAfter_succ (E : InvEnv) (rate : NumericMatrix) (is_cumulative atmost1 : Bool)
    (d : ℕ) :
    tauAfter E rate is_cumulative atmost1 (d + 1) =
      rowStep E (n_events E rate is_cumulative) (total rate is_cumulative) atmost1 d
        (tauAfter E rate is_cumulative atmost1 d) := by
  unfold tauAfter
  rw [rowsFrom_succ]
  simp

theorem tauAfter_frame (E : InvEnv) (rate : NumericMatrix) (is_cumulative atmost1 : Bool)
    (d : ℕ) :
    (tauAfter E rate is_cumulative atmost1 d).drawn = offset (n_events E rate is_cumulative) d ∧
    (tauAfter E rate is_cumulative atmost1 d).tmp.length = max_events E rate is_cumulative ∧
    (tauAfter E rate is_cumulative atmost1 d).Tau.nrow = rate.nrow ∧
    (tauAfter E rate is_cumulative atmost1 d).Tau.ncol =
      max_cols E rate is_cumulative atmost1 := by
  induction d with
  | zero => simp [tauAfter, rowsFrom, offset, NumericMatrix.filled]
  | succ d ih =>
    obtain ⟨h1, h2, h3, h4, -⟩ := rowStep_frame E (n_events E rate is_cumulative)
      (total rate is_cumulative) atmost1 d (tauAfter E rate is_cumulative atmost1 d)
    rw [tauAfter_succ, h1, h2, h3, h4, offset_succ]
    simp [ih]

/-- Without at-most-one: after `d` draws, row `i < d` of `Tau` holds the
sorted uniforms of draw `i` times its total in its first `n_events[i]`
slots; every other cell is still missing. -/
theorem tauAfter_cell_sorted (E : InvEnv) (rate : NumericMatrix) (is_cumulative : Bool)
    (d i j : ℕ) :
    (tauAfter E rate is_cumulative false d).Tau.cell i j =
      if i < d ∧ j < (n_events E rate is_cumulative).getD i 0 then
        Val.mul (Val.fin (((rowUniforms E (n_events E rate is_cumulative) i).insertionSort
          (fun a b => a ≤ b)).getD j 0)) (total rate is_cumulative i)
      else Val.get_na := by
  induction d with
  | zero => simp [tauAfter, rowsFrom, NumericMatrix.filled]
  | succ d ih =>
    rw [tauAfter_succ]
    by_cases hi : i = d
    · subst hi
      have hlen : (n_events E rate is_cumulative).getD i 0 ≤
          (tauAfter E rate is_cumulative false i).tmp.length := by
        rw [(tauAfter_frame E rate is_cumulative false i).2.1]
        exact getD_le_foldr_max _ _
      rw [rowStep_cell_sorted _ _ _ _ _ hlen, ih, (tauAfter_frame E rate is_cumulative false i).1]
      simp [rowUniforms]
    · rw [(rowStep_frame E _ _ false d _).2.2.2.2 i j hi, ih]
      by_cases hlt : i < d
      · have : i < d + 1 := by omega
        simp [hlt, this]
      · have : ¬ i < d + 1 := by omega
        simp [hlt, this]

/-- With at-most-one: after `d` draws, slot 0 of every row `i < d` with a
positive count holds the smallest uniform of draw `i` times its total. -/
theorem tauAfter_cell_min (E : InvEnv) (rate : NumericMatrix) (is_cumulative : Bool)
    (d i : ℕ) (hi : i < d) (h1 : 1 ≤ (n_events E rate is_cumulative).getD i 0) :
    (tauAfter E rate is_cumulative true d).Tau.cell i 0 =
      Val.mul (Val.fin (minOf (rowUniforms E (n_events E rate is_cumulative) i)))
        (total rate is_cumulative i) := by
  induction d with
  | zero => omega
  | succ d ih =>
    rw [tauAfter_succ]
    by_cases hid : i = d
    · subst hid
      have hlen : (n_events E rate is_cumulative).getD i 0 ≤
          (tauAfter E rate is_cumulative true i).tmp.length := by
        rw [(tauAfter_frame E rate is_cumulative true i).2.1]
        exact getD_le_foldr_max _ _
      rw [rowStep_cell_min _ _ _ _ _ hlen h1, (tauAfter_frame E rate is_cumulative true i).1]
      rfl
    · rw [(rowStep_frame E _ _ true d _).2.2.2.2 i 0 hid]
      exact ih (by omega)

/-! ## C9: the targets handed to the inversion primitive -/

/-- The shapes under which the inversion sampler reaches its `return`, with
a count generator that returns one count per draw. -/
theorem vztdraw_returns (E : InvEnv) (rate : NumericMatrix) (is_cumulative : Bool)
    (range_t : NumericMatrix) (atmost1 : Bool)
    (hshape : 2 ≤ range_t.ncol ∧ 0 < rate.ncol ∧ 0 < rate.nrow)
    (hlen : (n_events E rate is_cumulative).length = rate.nrow) :
    vztdraw_sc_step_regular E rate is_cumulative range_t atmost1 =
      some (E.step_regular_inverse
        (NumericMatrix.filled rate.nrow (max_cols E rate is_cumulative atmost1) Val.get_na)
        (max_events E rate is_cumulative)
        (Lambda rate is_cumulative)
        (targets E rate is_cumulative atmost1)
        (interval_duration range_t rate.ncol)
        range_t atmost1) := by
  have hne : n_events E rate is_cumulative ≠ [] := by
    intro h
    rw [h] at hlen
    simp at hlen
    omega
  simp [vztdraw_sc_step_regular, hshape.1, hshape.2.1, hne]

/-- C9: with `atmost1 = false`, valid shapes and one count per draw, the
sampler returns what the inversion primitive makes of the target matrix
`Tau`; `Tau` has one row per draw and as many columns as the largest count;
and row `r` holds in its first `n_r` slots the uniforms drawn for draw `r`
sorted in ascending order, each multiplied by `Lambda(r, n_intervals-1)`,
and the missing sentinel in every later slot. -/
theorem C9_targets_sorted_and_scaled (E : InvEnv) (rate : NumericMatrix)
    (is_cumulative : Bool) (range_t : NumericMatrix)
    (hshape : 2 ≤ range_t.ncol ∧ 0 < rate.ncol ∧ 0 < rate.nrow)
    (hlen : (n_events E rate is_cumulative).length = rate.nrow) :
    vztdraw_sc_step_regular E rate is_cumulative range_t false =
      some (E.step_regular_inverse
        (NumericMatrix.filled rate.nrow (max_cols E rate is_cumulative false) Val.get_na)
        (max_events E rate is_cumulative)
        (Lambda rate is_cumulative)
        (targets E rate is_cumulative false)
        (interval_duration range_t rate.ncol)
        range_t false) ∧
    (targets E rate is_cumulative false).nrow = rate.nrow ∧
    (targets E rate is_cumulative false).ncol = (n_events E rate is_cumulative).foldr max 0 ∧
    ∀ r, r < rate.nrow →
      ∃ sorted : List ℚ,
        sorted.Perm (rowUniforms E (n_events E rate is_cumulative) r) ∧
        sorted.Sorted (fun a b => a ≤ b) ∧
        (∀ ev, ev < (n_events E rate is_cumulative).getD r 0 →
          some ((targets E rate is_cumulative false).cell r ev) =
            (sorted.map (fun x => Val.mul (Val.fin x) (total rate is_cumulative r)))[ev]?) ∧
        (∀ ev, (n_events E rate is_cumulative).getD r 0 ≤ ev →
          ev < (targets E rate is_cumulative false).ncol →
          (targets E rate is_cumulative false).cell r ev = Val.get_na) := by
  refine ⟨vztdraw_returns E rate is_cumulative range_t false hshape hlen,
    (tauAfter_frame E rate is_cumulative false rate.nrow).2.2.1, ?_, ?_⟩
  · rw [targets, (tauAfter_frame E rate is_cumulative false rate.nrow).2.2.2]
    simp [max_cols, max_events]
  · intro r hr
    refine ⟨(rowUniforms E (n_events E rate is_cumulative) r).insertionSort (fun a b => a ≤ b),
      List.perm_insertionSort _ _, List.sorted_insertionSort _ _, ?_, ?_⟩
    · intro ev hev
      have hl : ev < ((rowUniforms E (n_events E rate is_cumulative) r).insertionSort
          (fun a b => a ≤ b)).length := by
        simpa [List.length_insertionSort, rowUniforms] using hev
      rw [targets, tauAfter_cell_sorted]
      simp only [hr, hev, and_self, if_true, List.getElem?_map, List.getElem?_eq_getElem hl,
        Option.map_some', List.getD_eq_getElem _ _ hl]
    · intro ev hev _
      rw [targets, tauAfter_cell_sorted]
      have : ¬ (r < rate.nrow ∧ ev < (n_events E rate is_cumulative).getD r 0) := by omega
      simp only [this, if_false]

/-- C9 at a concrete input: two draws with counts 2 and 1, rates `1, 1` and
`1/2, 1/2`, range `[0, 2]`. -/
theorem C9_witness :
    vztdraw_sc_step_regular (fixedInv [2, 1] someUniforms) rateTwo false range02 false =
      some ((fixedInv [2, 1] someUniforms).step_regular_inverse
        (NumericMatrix.filled rateTwo.nrow
          (max_cols (fixedInv [2, 1] someUniforms) rateTwo false false) Val.get_na)
        (max_events (fixedInv [2, 1] someUniforms) rateTwo false)
        (Lambda rateTwo false)
        (targets (fixedInv [2, 1] someUniforms) rateTwo false false)
        (interval_duration range02 rateTwo.ncol)
        range02 false) ∧
    (targets (fixedInv [2, 1] someUniforms) rateTwo false false).nrow = rateTwo.nrow ∧
    (targets (fixedInv [2, 1] someUniforms) rateTwo false false).ncol =
      (n_events (fixedInv [2, 1] someUniforms) rateTwo false).foldr max 0 ∧
    ∀ r, r < rateTwo.nrow →
      ∃ sorted : List ℚ,
        sorted.Perm (rowUniforms (fixedInv [2, 1] someUniforms)
          (n_events (fixedInv [2, 1] someUniforms) rateTwo false) r) ∧
        sorted.Sorted (fun a b => a ≤ b) ∧
        (∀ ev, ev < (n_events (fixedInv [2, 1] someUniforms) rateTwo false).getD r 0 →
          some ((targets (fixedInv [2, 1] someUniforms) rateTwo false false).cell r ev) =
            (sorted.map (fun x => Val.mul (Val.fin x) (total rateTwo false r)))[ev]?) ∧
        (∀ ev, (n_events (fixedInv [2, 1] someUniforms) rateTwo false).getD r 0 ≤ ev →
          ev < (targets (fixedInv [2, 1] someUniforms) rateTwo false false).ncol →
          (targets (fixedInv [2, 1] someUniforms) rateTwo false false).cell r ev = Val.get_na) :=
  C9_targets_sorted_and_scaled (fixedInv [2, 1] someUniforms) rateTwo false range02
    (by decide) (by decide)

/-! ## C10: zero truncation -/

theorem cumsumRow_finite (f : ℕ → Val) : ∀ (j : ℕ),
    (∀ k, k ≤ j → (f k).isFinite = true) → (cumsumRow f j).isFinite = true := by
  intro j
  induction j with
  | zero => intro h; exact h 0 (le_refl 0)
  | succ j ih =>
    intro h
    have h1 := ih (fun k hk => h k (by omega))
    have h2 := h (j + 1) (le_refl _)
    simp only [cumsumRow]
    cases hc : cumsumRow f j with
    | fin a =>
      cases hf : f (j + 1) with
      | fin b => simp [Val.add, Val.isFinite]
      | pinf => rw [hf] at h2; simp [Val.isFinite] at h2
      | ninf => rw [hf] at h2; simp [Val.isFinite] at h2
      | nan => rw [hf] at h2; simp [Val.isFinite] at h2
    | pinf => rw [hc] at h1; simp [Val.isFinite] at h1
    | ninf => rw [hc] at h1; simp [Val.isFinite] at h1
    | nan => rw [hc] at h1; simp [Val.isFinite] at h1

/-- A rate matrix with finite entries has finite totals. -/
theorem total_finite (rate : NumericMatrix) (is_cumulative : Bool) (r : ℕ)
    (hc : 0 < rate.ncol) (hfin : ∀ j, j < rate.ncol → (rate.cell r j).isFinite = true) :
    (total rate is_cumulative r).isFinite = true := by
  cases is_cumulative with
  | true => simpa [total, Lambda] using hfin (rate.ncol - 1) (by omega)
  | false =>
    simp only [total, Lambda, Bool.not_false, if_true, matrix_cumsum_columns]
    exact cumsumRow_finite _ _ (fun k hk => hfin k (by omega))

theorem mul_fin_ne_missing (x : ℚ) (v : Val) (h : v.isFinite = true) :
    Val.mul (Val.fin x) v ≠ Val.get_na := by
  cases v with
  | fin q => simp [Val.mul, Val.get_na]
  | pinf => simp [Val.isFinite] at h
  | ninf => simp [Val.isFinite] at h
  | nan => simp [Val.isFinite] at h

/-- C10: for either value of `atmost1`, with valid shapes, finite rates and
one count of at least 1 per draw, the target matrix has a first column and
slot 0 of every row is non-missing; the sampler returns, and when the
inversion primitive gives a non-missing time for every non-missing target,
every row of the returned matrix has a non-missing event time. -/
theorem C10_every_row_has_a_target (E : InvEnv) (rate : NumericMatrix)
    (is_cumulative : Bool) (range_t : NumericMatrix) (atmost1 : Bool)
    (hshape : 2 ≤ range_t.ncol ∧ 0 < rate.ncol ∧ 0 < rate.nrow)
    (hlen : (n_events E rate is_cumulative).length = rate.nrow)
    (hcount : ∀ r, r < rate.nrow → 1 ≤ (n_events E rate is_cumulative).getD r 0)
    (hfin : ∀ r, r < rate.nrow → ∀ j, j < rate.ncol → (rate.cell r j).isFinite = true) :
    (∀ r, r < rate.nrow →
      0 < (targets E rate is_cumulative atmost1).ncol ∧
      (targets E rate is_cumulative atmost1).cell r 0 ≠ Val.get_na) ∧
    ∃ out, vztdraw_sc_step_regular E rate is_cumulative range_t atmost1 = some out ∧
      ((∀ i j, i < (targets E rate is_cumulative atmost1).nrow →
          j < (targets E rate is_cumulative atmost1).ncol →
          (targets E rate is_cumulative atmost1).cell i j ≠ Val.get_na →
          j < out.ncol ∧ out.cell i j ≠ Val.get_na) →
        ∀ r, r < rate.nrow → ∃ j, j < out.ncol ∧ out.cell r j ≠ Val.get_na) := by
  have htargets : ∀ r, r < rate.nrow →
      0 < (targets E rate is_cumulative atmost1).ncol ∧
      (targets E rate is_cumulative atmost1).cell r 0 ≠ Val.get_na := by
    intro r hr
    have hc := hcount r hr
    have hmax := getD_le_foldr_max (n_events E rate is_cumulative) r
    have htot := total_finite rate is_cumulative r hshape.2.1 (hfin r hr)
    constructor
    · rw [targets, (tauAfter_frame E rate is_cumulative atmost1 rate.nrow).2.2.2]
      cases atmost1 with
      | true => simp [max_cols]
      | false => simp only [max_cols, max_events, Bool.false_eq_true, if_false]; omega
    · cases atmost1 with
      | true =>
        rw [targets, tauAfter_cell_min E rate is_cumulative rate.nrow r hr hc]
        exact mul_fin_ne_missing _ _ htot
      | false =>
        rw [targets, tauAfter_cell_sorted]
        have : r < rate.nrow ∧ 0 < (n_events E rate is_cumulative).getD r 0 := ⟨hr, by omega⟩
        simp only [this, and_self, if_true]
        exact mul_fin_ne_missing _ _ htot
  refine ⟨htargets, _, vztdraw_returns E rate is_cumulative range_t atmost1 hshape hlen, ?_⟩
  intro hinv r hr
  have hrow : r < (targets E rate is_cumulative atmost1).nrow := by
    rw [targets, (tauAfter_frame E rate is_cumulative atmost1 rate.nrow).2.2.1]
    exact hr
  exact ⟨0, hinv r 0 hrow (htargets r hr).1 (htargets r hr).2⟩

/-- C10 at a concrete input: two draws with counts 2 and 1, at most one
event, and a primitive that hands the targets back. -/
theorem C10_witness :
    (∀ r, r < rateTwo.nrow →
      0 < (targets (fixedInv [2, 1] someUniforms) rateTwo false true).ncol ∧
      (targets (fixedInv [2, 1] someUniforms) rateTwo false true).cell r 0 ≠ Val.get_na) ∧
    ∃ out, vztdraw_sc_step_regular (fixedInv [2, 1] someUniforms) rateTwo false range02 true
        = some out ∧
      ((∀ i j, i < (targets (fixedInv [2, 1] someUniforms) rateTwo false true).nrow →
          j < (targets (fixedInv [2, 1] someUniforms) rateTwo false true).ncol →
          (targets (fixedInv [2, 1] someUniforms) rateTwo false true).cell i j ≠ Val.get_na →
          j < out.ncol ∧ out.cell i j ≠ Val.get_na) →
        ∀ r, r < rateTwo.nrow → ∃ j, j < out.ncol ∧ out.cell r j ≠ Val.get_na) :=
  C10_every_row_has_a_target (fixedInv [2, 1] someUniforms) rateTwo false range02 true
    (by decide) (by decide) (by decide) (by decide)

/-! ## C12: the smallest-order-statistic shortcut -/

/-- A running minimum is below its start and every element it ran over, and
it is one of them. -/
theorem foldl_min_spec (xs : List ℚ) : ∀ (x : ℚ),
    xs.foldl min x ≤ x ∧ (∀ y ∈ xs, xs.foldl min x ≤ y) ∧
      (xs.foldl min x = x ∨ xs.foldl min x ∈ xs) := by
  induction xs with
  | nil => intro x; simp
  | cons a t ih =>
    intro x
    obtain ⟨h1, h2, h3⟩ := ih (min x a)
    simp only [List.foldl_cons, List.mem_cons]
    refine ⟨le_trans h1 (min_le_left _ _), ?_, ?_⟩
    · intro y hy
      rcases hy with rfl | hy
      · exact le_trans h1 (min_le_right _ _)
      · exact h2 y hy
    · rcases h3 with h3 | h3
      · rcases min_choice x a with hm | hm
        · left; rw [h3, hm]
        · right; left; rw [h3, hm]
      · right; right; exact h3

/-- The smallest element of a non-empty list is the first element of the
sorted list. -/
theorem minOf_eq_sorted_head (us : List ℚ) (hne : us ≠ []) :
    minOf us = (us.insertionSort (fun a b => a ≤ b)).getD 0 0 := by
  have hperm := List.perm_insertionSort (fun a b : ℚ => a ≤ b) us
  have hsorted := List.sorted_insertionSort (fun a b : ℚ => a ≤ b) us
  cases hs : us.insertionSort (fun a b => a ≤ b) with
  | nil =>
    rw [hs] at hperm
    exact absurd (List.Perm.nil_eq hperm).symm hne
  | cons a t =>
    rw [hs] at hperm hsorted
    have ha : a ∈ us := hperm.subset (List.mem_cons_self a t)
    have hle : ∀ b ∈ us, a ≤ b := by
      intro b hb
      rcases List.mem_cons.mp (hperm.symm.subset hb) with rfl | hb
      · exact le_refl _
      · exact List.rel_of_sorted_cons hsorted b hb
    cases us with
    | nil => exact absurd rfl hne
    | cons x xs =>
      obtain ⟨h1, h2, h3⟩ := foldl_min_spec xs x
      simp only [minOf, List.getD_cons_zero]
      apply le_antisymm
      · rcases List.mem_cons.mp ha with rfl | hax
        · exact h1
        · exact h2 a hax
      · rcases h3 with h3 | h3
        · rw [h3]; exact hle x (List.mem_cons_self x xs)
        · exact hle _ (List.mem_cons_of_mem x h3)

theorem rowUniforms_ne_nil (E : InvEnv) (counts : List ℕ) (r : ℕ)
    (h : 1 ≤ counts.getD r 0) : rowUniforms E counts r ≠ [] := by
  intro hnil
  have := congrArg List.length hnil
  simp only [rowUniforms, List.length_map, List.length_range, List.length_nil] at this
  omega

/-- C12: for every rate matrix, count generator and uniform stream with a
count of at least 1 for every draw, the target matrix built with
`atmost1 = true` has exactly one column, the one built with `atmost1 = false`
has a column 0, and on every row the single target of the first equals
column 0 of the second (the same counts and the same uniforms are used by
both). -/
theorem C12_minimum_equals_first_sorted (E : InvEnv) (rate : NumericMatrix)
    (is_cumulative : Bool)
    (hcount : ∀ r, r < rate.nrow → 1 ≤ (n_events E rate is_cumulative).getD r 0) :
    (targets E rate is_cumulative true).ncol = 1 ∧
    ∀ r, r < rate.nrow →
      0 < (targets E rate is_cumulative false).ncol ∧
      (targets E rate is_cumulative true).cell r 0 =
        (targets E rate is_cumulative false).cell r 0 := by
  constructor
  · rw [targets, (tauAfter_frame E rate is_cumulative true rate.nrow).2.2.2]
    simp [max_cols]
  · intro r hr
    have hc := hcount r hr
    have hmax := getD_le_foldr_max (n_events E rate is_cumulative) r
    constructor
    · rw [targets, (tauAfter_frame E rate is_cumulative false rate.nrow).2.2.2]
      simp only [max_cols, max_events, Bool.false_eq_true, if_false]
      omega
    · rw [targets, targets, tauAfter_cell_min E rate is_cumulative rate.nrow r hr hc,
        tauAfter_cell_sorted]
      have : r < rate.nrow ∧ 0 < (n_events E rate is_cumulative).getD r 0 := ⟨hr, by omega⟩
      simp only [this, and_self, if_true]
      rw [minOf_eq_sorted_head _ (rowUniforms_ne_nil E _ r hc)]

/-- C12 at a concrete input: two draws with counts 2 and 1. -/
theorem C12_witness :
    (targets (fixedInv [2, 1] someUniforms) rateTwo false true).ncol = 1 ∧
    ∀ r, r < rateTwo.nrow →
      0 < (targets (fixedInv [2, 1] someUniforms) rateTwo false false).ncol ∧
      (targets (fixedInv [2, 1] someUniforms) rateTwo false true).cell r 0 =
        (targets (fixedInv [2, 1] someUniforms) rateTwo false false).cell r 0 :=
  C12_minimum_equals_first_sorted (fixedInv [2, 1] someUniforms) rateTwo false (by decide)

/-! ## C11: the single target of an at-most-one draw -/

theorem minOf_mem (us : List ℚ) (hne : us ≠ []) : minOf us ∈ us := by
  cases us with
  | nil => exact absurd rfl hne
  | cons x xs =>
    obtain ⟨-, -, h3⟩ := foldl_min_spec xs x
    simp only [minOf]
    rcases h3 with h3 | h3
    · rw [h3]; exact List.mem_cons_self x xs
    · exact List.mem_cons_of_mem x h3

/-- The smallest uniform of a draw lies in `(0, 1)` when all uniforms do. -/
theorem rowMin_in_unit (E : InvEnv) (counts : List ℕ) (r : ℕ) (h : 1 ≤ counts.getD r 0)
    (hu : ∀ k, 0 < E.runif k ∧ E.runif k < 1) :
    0 < minOf (rowUniforms E counts r) ∧ minOf (rowUniforms E counts r) < 1 := by
  have hmem := minOf_mem _ (rowUniforms_ne_nil E counts r h)
  generalize minOf (rowUniforms E counts r) = m at hmem
  simp only [rowUniforms, List.mem_map] at hmem
  obtain ⟨ev, -, hev⟩ := hmem
  rw [← hev]
  exact hu _

/-- A time strictly after a non-negative start is strictly positive. -/
theorem Val.pos_of_start (s t : Val) (hs : Val.le (Val.fin 0) s = true) (ht : Val.lt s t) :
    Val.lt (Val.fin 0) t := by
  cases s <;> cases t <;> simp_all [Val.le, Val.lt, Val.gt]
  exact lt_of_le_of_lt hs ht

/-- C11 as stated fails in its last part: one draw with rates `1, 1` over the
range `[-3, -1]`, count 1, uniform `1/2`, `atmost1 = true`, and the linear
inversion primitive.  The total is 2, the single target is 1 (inside
`(0, 2)`), the primitive maps it to the time `-2`, which lies in `(-3, -1]`
and is the only entry of its row, but is not strictly positive. -/
theorem C11_counterexample_negative_range :
    n_events (linearInv [1] (fun _ => 1 / 2)) rate11 false = [1] ∧
    total rate11 false 0 = Val.fin 2 ∧
    (targets (linearInv [1] (fun _ => 1 / 2)) rate11 false true).toRows = [[Val.fin 1]] ∧
    (vztdraw_sc_step_regular (linearInv [1] (fun _ => 1 / 2)) rate11 false rangeNeg true).map
      NumericMatrix.toRows = some [[Val.fin (-2)]] ∧
    Val.lt (rangeNeg.cell 0 0) (Val.fin (-2)) ∧
    Val.le (Val.fin (-2)) (rangeNeg.cell 0 1) = true ∧
    ¬ Val.lt (Val.fin 0) (Val.fin (-2)) := by
  decide!

/-- C11 (amended): `atmost1 = true`, valid shapes, one count of at least 1
per draw, a finite positive total per draw and uniforms in `(0, 1)`.  The
target matrix has exactly one column and the single target `tau` of every
row satisfies `0 < tau < Lambda(r, n_intervals-1)`.  The sampler returns,
and when the primitive's result has one column and holds, for every target
in `(0, total]`, a time in `(start, end]`, then every row of the result is
one non-missing time inside its range, strictly positive when the range
starts at 0 or later. -/
theorem C11_single_target_in_range (E : InvEnv) (rate : NumericMatrix)
    (is_cumulative : Bool) (range_t : NumericMatrix)
    (hshape : 2 ≤ range_t.ncol ∧ 0 < rate.ncol ∧ 0 < rate.nrow)
    (hlen : (n_events E rate is_cumulative).length = rate.nrow)
    (hcount : ∀ r, r < rate.nrow → 1 ≤ (n_events E rate is_cumulative).getD r 0)
    (htotal : ∀ r, r < rate.nrow →
      (total rate is_cumulative r).isFinite = true ∧
      Val.lt (Val.fin 0) (total rate is_cumulative r))
    (hu : ∀ k, 0 < E.runif k ∧ E.runif k < 1) :
    (targets E rate is_cumulative true).ncol = 1 ∧
    (∀ r, r < rate.nrow →
      Val.lt (Val.fin 0) ((targets E rate is_cumulative true).cell r 0) ∧
      Val.lt ((targets E rate is_cumulative true).cell r 0) (total rate is_cumulative r)) ∧
    ∃ out, vztdraw_sc_step_regular E rate is_cumulative range_t true = some out ∧
      ((out.ncol = 1 ∧ ∀ r, r < rate.nrow →
          Val.lt (Val.fin 0) ((targets E rate is_cumulative true).cell r 0) →
          Val.le ((targets E rate is_cumulative true).cell r 0)
            (total rate is_cumulative r) = true →
          Val.lt (range_t.cell r 0) (out.cell r 0) ∧
          Val.le (out.cell r 0) (range_t.cell r 1) = true) →
        out.ncol = 1 ∧ ∀ r, r < rate.nrow →
          out.cell r 0 ≠ Val.get_na ∧
          Val.lt (range_t.cell r 0) (out.cell r 0) ∧
          Val.le (out.cell r 0) (range_t.cell r 1) = true ∧
          (Val.le (Val.fin 0) (range_t.cell r 0) = true →
            Val.lt (Val.fin 0) (out.cell r 0))) := by
  have hcol : (targets E rate is_cumulative true).ncol = 1 := by
    rw [targets, (tauAfter_frame E rate is_cumulative true rate.nrow).2.2.2]
    simp [max_cols]
  have htau : ∀ r, r < rate.nrow →
      Val.lt (Val.fin 0) ((targets E rate is_cumulative true).cell r 0) ∧
      Val.lt ((targets E rate is_cumulative true).cell r 0) (total rate is_cumulative r) := by
    intro r hr
    have hc := hcount r hr
    obtain ⟨hm0, hm1⟩ := rowMin_in_unit E (n_events E rate is_cumulative) r hc hu
    obtain ⟨hf, hpos⟩ := htotal r hr
    rw [targets, tauAfter_cell_min E rate is_cumulative rate.nrow r hr hc]
    cases hL : total rate is_cumulative r with
    | fin L =>
      rw [hL] at hpos
      have hLpos : 0 < L := by simpa [Val.lt, Val.gt] using hpos
      simp only [Val.mul, Val.lt, Val.gt, decide_eq_true_eq]
      constructor
      · exact mul_pos hm0 hLpos
      · calc minOf (rowUniforms E (n_events E rate is_cumulative) r) * L
            < 1 * L := mul_lt_mul_of_pos_right hm1 hLpos
          _ = L := one_mul L
    | pinf => rw [hL] at hf; simp [Val.isFinite] at hf
    | ninf => rw [hL] at hf; simp [Val.isFinite] at hf
    | nan => rw [hL] at hf; simp [Val.isFinite] at hf
  refine ⟨hcol, htau, _, vztdraw_returns E rate is_cumulative range_t true hshape hlen, ?_⟩
  rintro ⟨hone, hprim⟩
  refine ⟨hone, ?_⟩
  intro r hr
  obtain ⟨h0, h1⟩ := htau r hr
  have hle : Val.le ((targets E rate is_cumulative true).cell r 0)
      (total rate is_cumulative r) = true := by
    revert h1
    cases (targets E rate is_cumulative true).cell r 0 <;>
      cases total rate is_cumulative r <;> simp [Val.le, Val.lt, Val.gt]
    exact le_of_lt
  obtain ⟨ht0, ht1⟩ := hprim r hr h0 hle
  refine ⟨?_, ht0, ht1, fun hs => Val.pos_of_start _ _ hs ht0⟩
  intro hna
  rw [hna] at ht0
  revert ht0
  cases range_t.cell r 0 <;> simp [Val.lt, Val.gt, Val.get_na]

theorem someUniforms_in_unit (k : ℕ) : 0 < someUniforms k ∧ someUniforms k < 1 := by
  unfold someUniforms
  split <;> norm_num

/-- C11 (amended) at the scenario of the specification: rates `1, 1` and
`1/2, 1/2`, range `[0, 2]` for both draws, counts 2 and 1. -/
theorem C11_witness :
    (targets (linearInv [2, 1] someUniforms) rateTwo false true).ncol = 1 ∧
    (∀ r, r < rateTwo.nrow →
      Val.lt (Val.fin 0) ((targets (linearInv [2, 1] someUniforms) rateTwo false true).cell r 0) ∧
      Val.lt ((targets (linearInv [2, 1] someUniforms) rateTwo false true).cell r 0)
        (total rateTwo false r)) ∧
    ∃ out, vztdraw_sc_step_regular (linearInv [2, 1] someUniforms) rateTwo false range02 true
        = some out ∧
      ((out.ncol = 1 ∧ ∀ r, r < rateTwo.nrow →
          Val.lt (Val.fin 0)
            ((targets (linearInv [2, 1] someUniforms) rateTwo false true).cell r 0) →
          Val.le ((targets (linearInv [2, 1] someUniforms) rateTwo false true).cell r 0)
            (total rateTwo false r) = true →
          Val.lt (range02.cell r 0) (out.cell r 0) ∧
          Val.le (out.cell r 0) (range02.cell r 1) = true) →
        out.ncol = 1 ∧ ∀ r, r < rateTwo.nrow →
          out.cell r 0 ≠ Val.get_na ∧
          Val.lt (range02.cell r 0) (out.cell r 0) ∧
          Val.le (out.cell r 0) (range02.cell r 1) = true ∧
          (Val.le (Val.fin 0) (range02.cell r 0) = true →
            Val.lt (Val.fin 0) (out.cell r 0))) :=
  C11_single_target_in_range (linearInv [2, 1] someUniforms) rateTwo false range02
    (by decide) (by decide) (by decide) (by decide!) someUniforms_in_unit

/-! ## C13: the width rule -/

theorem sup_pred (f : ℕ → ℕ) (n : ℕ) :
    (Finset.range n).sup (fun d => f d - 1) = (Finset.range n).sup f - 1 := by
  induction n with
  | zero => simp
  | succ n ih =>
    rw [Finset.range_succ, Finset.sup_insert, Finset.sup_insert, ih]
    change max (f n - 1) _ = max (f n) _ - 1
    omega

/-- C13: with valid shapes and a proposal matrix with at least one column,
the sampler returns a matrix with `1 + max_acc_i` columns, where the final
`max_acc_i` is the largest slot index written by an acceptance (draw `d`
writes the slots `0 .. count d - 1`) or 0 when nothing was accepted; this is
`max 1 m` for `m` the largest accepted count.  A batch without any
acceptance returns a single all-missing column, and a draw without accepted
events is an all-missing row of the returned width. -/
theorem C13_width_rule (E : Env) (rate_maj : NumericMatrix) (is_cumulative : Bool)
    (range_t : NumericMatrix) (tol : Val) (atmost1 : Bool)
    (hv : ValidInput rate_maj range_t)
    (hc : 0 < (scanCtx E rate_maj is_cumulative range_t tol atmost1).Zstar.ncol) :
    ∃ out,
      vdraw_intensity_step_regular E rate_maj is_cumulative range_t tol atmost1 = some out ∧
      out.ncol = 1 + ((scanCtx E rate_maj is_cumulative range_t tol atmost1).after
        rate_maj.nrow rate_maj.nrow).max_acc_i ∧
      ((scanCtx E rate_maj is_cumulative range_t tol atmost1).after
          rate_maj.nrow rate_maj.nrow).max_acc_i =
        (Finset.range rate_maj.nrow).sup (fun d =>
          (scanCtx E rate_maj is_cumulative range_t tol atmost1).acceptedCount
            rate_maj.nrow d - 1) ∧
      out.ncol = max 1 ((Finset.range rate_maj.nrow).sup (fun d =>
        (scanCtx E rate_maj is_cumulative range_t tol atmost1).acceptedCount rate_maj.nrow d)) ∧
      ((∀ d, d < rate_maj.nrow →
          (scanCtx E rate_maj is_cumulative range_t tol atmost1).acceptedCount
            rate_maj.nrow d = 0) →
        out.ncol = 1 ∧ ∀ d, d < rate_maj.nrow → out.cell d 0 = Val.get_na) ∧
      (∀ d, d < rate_maj.nrow →
        (scanCtx E rate_maj is_cumulative range_t tol atmost1).acceptedCount
          rate_maj.nrow d = 0 →
        ∀ j, j < out.ncol → out.cell d j = Val.get_na) := by
  obtain ⟨out, hout, -, hcol, hcell⟩ :=
    vdraw_result E rate_maj is_cumulative range_t tol atmost1 hv
  have hle := ScanCtx.sup_accepted_le (scanCtx E rate_maj is_cumulative range_t tol atmost1)
    rate_maj.nrow
  have hmiss : ∀ d, d < rate_maj.nrow →
      (scanCtx E rate_maj is_cumulative range_t tol atmost1).acceptedCount
        rate_maj.nrow d = 0 →
      ∀ j, j < out.ncol → out.cell d j = Val.get_na := by
    intro d hd h0 j hj
    rw [ScanCtx.acceptedCount_eq] at h0
    rw [hcell d j hd (by omega), List.length_eq_zero.mp h0]
    rfl
  refine ⟨out, hout, ?_, ?_, ?_, ?_, hmiss⟩
  · rw [hcol, ScanCtx.after_max]
    omega
  · simp only [ScanCtx.acceptedCount_eq]
    rw [ScanCtx.after_max, sup_pred]
  · simp only [ScanCtx.acceptedCount_eq]
    exact hcol
  · intro hall
    have hsup : (Finset.range rate_maj.nrow).sup (fun i =>
        ((scanCtx E rate_maj is_cumulative range_t tol atmost1).accepted i).length) = 0 := by
      apply Nat.eq_zero_of_le_zero
      apply Finset.sup_le
      intro d hd
      rw [← ScanCtx.acceptedCount_eq _ rate_maj.nrow d, hall d (Finset.mem_range.mp hd)]
    have h1 : out.ncol = 1 := by rw [hcol, hsup]; rfl
    exact ⟨h1, fun d hd => hmiss d hd (hall d hd) 0 (by omega)⟩

/-- C13 at a concrete input: two draws with two and one accepted events. -/
theorem C13_witness :
    ∃ out,
      vdraw_intensity_step_regular envTwo cum24 true range02 (Val.fin 0) false = some out ∧
      out.ncol = 1 + ((scanCtx envTwo cum24 true range02 (Val.fin 0) false).after
        cum24.nrow cum24.nrow).max_acc_i ∧
      ((scanCtx envTwo cum24 true range02 (Val.fin 0) false).after
          cum24.nrow cum24.nrow).max_acc_i =
        (Finset.range cum24.nrow).sup (fun d =>
          (scanCtx envTwo cum24 true range02 (Val.fin 0) false).acceptedCount
            cum24.nrow d - 1) ∧
      out.ncol = max 1 ((Finset.range cum24.nrow).sup (fun d =>
        (scanCtx envTwo cum24 true range02 (Val.fin 0) false).acceptedCount cum24.nrow d)) ∧
      ((∀ d, d < cum24.nrow →
          (scanCtx envTwo cum24 true range02 (Val.fin 0) false).acceptedCount
            cum24.nrow d = 0) →
        out.ncol = 1 ∧ ∀ d, d < cum24.nrow → out.cell d 0 = Val.get_na) ∧
      (∀ d, d < cum24.nrow →
        (scanCtx envTwo cum24 true range02 (Val.fin 0) false).acceptedCount
          cum24.nrow d = 0 →
        ∀ j, j < out.ncol → out.cell d j = Val.get_na) :=
  C13_width_rule envTwo cum24 true range02 (Val.fin 0) false (by decide) (by decide)

/-! ## C14: from rate to cumulative form and back -/

/-- One step of the running sum over finite entries. -/
theorem cumsumRow_step (f : ℕ → Val) (j : ℕ)
    (h : ∀ k, k ≤ j + 1 → (f k).isFinite = true) :
    ∃ a b, cumsumRow f j = Val.fin a ∧ f (j + 1) = Val.fin b ∧
      cumsumRow f (j + 1) = Val.fin (a + b) := by
  have h1 := cumsumRow_finite f j (fun k hk => h k (by omega))
  have h2 := h (j + 1) (le_refl _)
  cases hc : cumsumRow f j with
  | fin a =>
    cases hf : f (j + 1) with
    | fin b => exact ⟨a, b, rfl, rfl, by simp [cumsumRow, hc, hf, Val.add]⟩
    | pinf => rw [hf] at h2; simp [Val.isFinite] at h2
    | ninf => rw [hf] at h2; simp [Val.isFinite] at h2
    | nan => rw [hf] at h2; simp [Val.isFinite] at h2
  | pinf => rw [hc] at h1; simp [Val.isFinite] at h1
  | ninf => rw [hc] at h1; simp [Val.isFinite] at h1
  | nan => rw [hc] at h1; simp [Val.isFinite] at h1

/-- C14: exact arithmetic on a rate matrix `R` with finite entries and
finite non-zero interval durations.  Let `L` be the cumulative form that the
`is_cumulative = false` branch derives from `R`.  Supplied back with
`is_cumulative = true`, `L` gives the rate form `lambda_maj` equal to `R`
and the cumulative form `Lambda_maj` equal to `L`. -/
theorem C14_round_trip (R range_t : NumericMatrix)
    (hfin : ∀ i, i < R.nrow → ∀ j, j < R.ncol → (R.cell i j).isFinite = true)
    (hdur : ∀ i, i < R.nrow →
      (interval_duration range_t R.ncol i).isFinite = true ∧
      interval_duration range_t R.ncol i ≠ Val.fin 0) :
    (lambda_maj (Lambda_maj R false range_t) true range_t).Same R ∧
    (Lambda_maj (Lambda_maj R false range_t) true range_t).Same (Lambda_maj R false range_t) := by
  constructor
  · refine ⟨rfl, rfl, ?_⟩
    intro i hi j hj
    have hi' : i < R.nrow := hi
    have hj' : j < R.ncol := hj
    obtain ⟨hdf, hd0⟩ := hdur i hi'
    have hcol : (Lambda_maj R false range_t).ncol = R.ncol := rfl
    cases hd : interval_duration range_t R.ncol i with
    | fin d =>
      have hdne : d ≠ 0 := by
        intro h0
        apply hd0
        rw [hd, h0]
      cases j with
      | zero =>
        have h0 := hfin i hi' 0 hj'
        cases hr : R.cell i 0 with
        | fin a =>
          simp [lambda_maj, Lambda_maj, matrix_diff_columns, matrix_cumsum_columns, cumsumRow,
            hd, hr, Val.mul, Val.div, hdne]
        | pinf => rw [hr] at h0; simp [Val.isFinite] at h0
        | ninf => rw [hr] at h0; simp [Val.isFinite] at h0
        | nan => rw [hr] at h0; simp [Val.isFinite] at h0
      | succ j =>
        obtain ⟨a, b, ha, hb, hab⟩ := cumsumRow_step (R.cell i) j
          (fun k hk => hfin i hi' k (by omega))
        simp only [lambda_maj, Lambda_maj, matrix_diff_columns, matrix_cumsum_columns,
          Bool.not_false, Bool.not_true, if_true, Bool.false_eq_true, if_false, hd, ha, hab, hb,
          Val.mul, Val.sub, Val.neg, Val.add, Val.div, hdne]
        congr 1
        field_simp
        ring
    | pinf => rw [hd] at hdf; simp [Val.isFinite] at hdf
    | ninf => rw [hd] at hdf; simp [Val.isFinite] at hdf
    | nan => rw [hd] at hdf; simp [Val.isFinite] at hdf
  · exact ⟨rfl, rfl, fun _ _ _ _ => rfl⟩

/-- C14 at a concrete input: rates `1, 1` and `1/2, 1/2` over `[0, 2]`. -/
theorem C14_witness :
    (lambda_maj (Lambda_maj rateTwo false range02) true range02).Same rateTwo ∧
    (Lambda_maj (Lambda_maj rateTwo false range02) true range02).Same
      (Lambda_maj rateTwo false range02) :=
  C14_round_trip rateTwo range02 (by decide) (by decide!)

/-! ## C15: the cumulative intensity of the two samplers -/

/-- Where every interval lasts one time unit the two samplers derive the
same cumulative intensity from a rate matrix with finite entries. -/
theorem Lambda_maj_eq_Lambda_of_unit_duration (R range_t : NumericMatrix) (i j : ℕ)
    (hfin : ∀ k, k ≤ j → (R.cell i k).isFinite = true)
    (hdur : interval_duration range_t R.ncol i = Val.fin 1) :
    (Lambda_maj R false range_t).cell i j = (Lambda R false).cell i j := by
  have h := cumsumRow_finite (R.cell i) j hfin
  simp only [Lambda_maj, Lambda, Bool.not_false, if_true, matrix_cumsum_columns, hdur]
  cases hc : cumsumRow (R.cell i) j with
  | fin a => simp [Val.mul]
  | pinf => rw [hc] at h; simp [Val.isFinite] at h
  | ninf => rw [hc] at h; simp [Val.isFinite] at h
  | nan => rw [hc] at h; simp [Val.isFinite] at h

/-- C15 (code defect): the inversion sampler computes the interval durations
but never multiplies the cumulative sum by them, while the thinning sampler
does.  One draw with rates `1, 1` over `[0, 4]` (duration 2): the inversion
sampler's cumulative intensity is `1, 2` and its total 2, the thinning
sampler's is `2, 4`. -/
theorem C15_inversion_sampler_omits_duration :
    interval_duration range04 rate11.ncol 0 = Val.fin 2 ∧
    (Lambda rate11 false).toRows = [[Val.fin 1, Val.fin 2]] ∧
    (Lambda_maj rate11 false range04).toRows = [[Val.fin 2, Val.fin 4]] ∧
    total rate11 false 0 = Val.fin 2 ∧
    (Lambda rate11 false).cell 0 1 ≠ (Lambda_maj rate11 false range04).cell 0 1 := by
  decide!

/-! ## C16: rows do not see what earlier draws left in `tmp` -/

/-- The cells one iteration writes to its row, whatever `tmp` held before:
the sorted uniforms of the draw (or their minimum) times the total. -/
theorem rowStep_written (E : InvEnv) (counts : List ℕ) (tot : ℕ → Val) (atmost1 : Bool)
    (r : ℕ) (st : TauState) (h : counts.getD r 0 ≤ st.tmp.length)
    (h1 : 1 ≤ counts.getD r 0) (j : ℕ)
    (hj : j < (if atmost1 then 1 else counts.getD r 0)) :
    (rowStep E counts tot atmost1 r st).Tau.cell r j =
      if atmost1 then
        Val.mul (Val.fin (minOf ((List.range (counts.getD r 0)).map
          (fun t => E.runif (st.drawn + t))))) (tot r)
      else
        Val.mul (Val.fin ((((List.range (counts.getD r 0)).map
          (fun t => E.runif (st.drawn + t))).insertionSort (fun a b => a ≤ b)).getD j 0))
          (tot r) := by
  cases atmost1 with
  | true =>
    simp only [if_true] at hj ⊢
    have hj0 : j = 0 := by omega
    subst hj0
    exact rowStep_cell_min E counts tot r st h h1
  | false =>
    simp only [Bool.false_eq_true, if_false] at hj ⊢
    rw [rowStep_cell_sorted E counts tot r st h, if_pos hj]

/-- The targets of a row in closed form. -/
theorem targets_row (E : InvEnv) (rate : NumericMatrix) (is_cumulative atmost1 : Bool)
    (r : ℕ) (hr : r < rate.nrow) (h1 : 1 ≤ (n_events E rate is_cumulative).getD r 0) (j : ℕ)
    (hj : j < (if atmost1 then 1 else (n_events E rate is_cumulative).getD r 0)) :
    (targets E rate is_cumulative atmost1).cell r j =
      if atmost1 then
        Val.mul (Val.fin (minOf (rowUniforms E (n_events E rate is_cumulative) r)))
          (total rate is_cumulative r)
      else
        Val.mul (Val.fin (((rowUniforms E (n_events E rate is_cumulative) r).insertionSort
          (fun a b => a ≤ b)).getD j 0)) (total rate is_cumulative r) := by
  cases atmost1 with
  | true =>
    simp only [if_true] at hj ⊢
    have hj0 : j = 0 := by omega
    subst hj0
    exact tauAfter_cell_min E rate is_cumulative rate.nrow r hr h1
  | false =>
    simp only [Bool.false_eq_true, if_false] at hj ⊢
    rw [targets, tauAfter_cell_sorted]
    have : r < rate.nrow ∧ j < (n_events E rate is_cumulative).getD r 0 := ⟨hr, hj⟩
    simp only [this, and_self, if_true]

/-- C16: take a row `r` of one call and a row `r'` of another call (other
rates, counts, uniform stream, number and order of draws) that have the same
count (at least 1), the same total and the same uniforms drawn for them.
Then the targets written to the two rows are equal, slot by slot; and within
one call, the cells an iteration writes to its row are the same whatever the
scratch buffer `tmp` and the matrix `Tau` held when the iteration started. -/
theorem C16_row_independent_of_earlier_draws (E E' : InvEnv) (rate rate' : NumericMatrix)
    (is_cumulative is_cumulative' atmost1 : Bool) (r r' : ℕ)
    (hr : r < rate.nrow) (hr' : r' < rate'.nrow)
    (hc : 1 ≤ (n_events E rate is_cumulative).getD r 0)
    (hcount : (n_events E' rate' is_cumulative').getD r' 0 =
      (n_events E rate is_cumulative).getD r 0)
    (htotal : total rate' is_cumulative' r' = total rate is_cumulative r)
    (hunif : rowUniforms E' (n_events E' rate' is_cumulative') r' =
      rowUniforms E (n_events E rate is_cumulative) r) :
    (∀ j, j < (if atmost1 then 1 else (n_events E rate is_cumulative).getD r 0) →
      (targets E' rate' is_cumulative' atmost1).cell r' j =
        (targets E rate is_cumulative atmost1).cell r j) ∧
    (∀ st st' : TauState,
      (n_events E rate is_cumulative).getD r 0 ≤ st.tmp.length →
      (n_events E rate is_cumulative).getD r 0 ≤ st'.tmp.length →
      st'.drawn = st.drawn →
      ∀ j, j < (if atmost1 then 1 else (n_events E rate is_cumulative).getD r 0) →
        (rowStep E (n_events E rate is_cumulative) (total rate is_cumulative) atmost1 r
            st').Tau.cell r j =
          (rowStep E (n_events E rate is_cumulative) (total rate is_cumulative) atmost1 r
            st).Tau.cell r j) := by
  constructor
  · intro j hj
    rw [targets_row E rate is_cumulative atmost1 r hr hc j hj,
      targets_row E' rate' is_cumulative' atmost1 r' hr' (by omega) j (by rw [hcount]; exact hj),
      hunif, htotal]
  · intro st st' hl hl' hd j hj
    rw [rowStep_written E _ _ atmost1 r st hl hc j hj,
      rowStep_written E _ _ atmost1 r st' hl' hc j hj, hd]

/-- C16 at a concrete input: the second draw of a call whose first draw has
the larger count 2, against the only draw of another call. -/
theorem C16_witness :
    (∀ j, j < (if false then 1
        else (n_events (fixedInv [2, 1] someUniforms) rateTwo false).getD 1 0) →
      (targets (fixedInv [1] (fun _ => 1 / 2)) rateHalf false false).cell 0 j =
        (targets (fixedInv [2, 1] someUniforms) rateTwo false false).cell 1 j) ∧
    (∀ st st' : TauState,
      (n_events (fixedInv [2, 1] someUniforms) rateTwo false).getD 1 0 ≤ st.tmp.length →
      (n_events (fixedInv [2, 1] someUniforms) rateTwo false).getD 1 0 ≤ st'.tmp.length →
      st'.drawn = st.drawn →
      ∀ j, j < (if false then 1
          else (n_events (fixedInv [2, 1] someUniforms) rateTwo false).getD 1 0) →
        (rowStep (fixedInv [2, 1] someUniforms)
            (n_events (fixedInv [2, 1] someUniforms) rateTwo false) (total rateTwo false)
            false 1 st').Tau.cell 1 j =
          (rowStep (fixedInv [2, 1] someUniforms)
            (n_events (fixedInv [2, 1] someUniforms) rateTwo false) (total rateTwo false)
            false 1 st).Tau.cell 1 j) :=
  C16_row_independent_of_earlier_draws (fixedInv [2, 1] someUniforms)
    (fixedInv [1] (fun _ => 1 / 2)) rateTwo rateHalf false false false 1 0
    (by decide) (by decide) (by decide) (by decide) (by decide!) (by decide!)

/-! ## C17: write safety of the scan -/

namespace ScanCtx

/-- The loop invariant: entered with `acc_i ≤ ev`, every iteration starts
with `acc_i` at most its candidate index, and the candidate index stays
below the number of candidates. -/
theorem iterations_invariant (C : ScanCtx) (draw n : ℕ) : ∀ (ev : ℕ) (st : ScanState),
    st.acc_i ≤ ev →
      ∀ x ∈ iterations C draw n ev st, x.2.1 ≤ x.1 ∧ ev ≤ x.1 ∧ x.1 < ev + n := by
  induction n with
  | zero => intro ev st _ x hx; simp [iterations] at hx
  | succ n ih =>
    intro ev st h x hx
    simp only [iterations] at hx
    by_cases ha : C.accept draw ev st.drawn = true
    · simp only [ha, if_true, List.mem_cons] at hx
      rcases hx with rfl | hx
      · exact ⟨h, le_refl _, by omega⟩
      · by_cases hb : C.atmost1 = true
        · simp [hb] at hx
        · simp only [hb, if_false, Bool.false_eq_true] at hx
          obtain ⟨h1, h2, h3⟩ := ih (ev + 1) _ (by simpa using h) x hx
          exact ⟨h1, by omega, by omega⟩
    · simp only [ha, if_false, List.mem_cons, Bool.false_eq_true] at hx
      rcases hx with rfl | hx
      · exact ⟨h, le_refl _, by omega⟩
      · obtain ⟨h1, h2, h3⟩ := ih (ev + 1) _ (by simp; omega) x hx
        exact ⟨h1, by omega, by omega⟩

/-- The iterations that write are exactly the acceptances of the scan: the
columns they write, in order, are `acc_i, acc_i + 1, ...`, one per accepted
proposal. -/
theorem iterations_writes (C : ScanCtx) (draw n : ℕ) : ∀ (ev : ℕ) (st : ScanState),
    ((iterations C draw n ev st).filter (fun x => x.2.2)).map (fun x => x.2.1) =
      List.range' st.acc_i (accList C draw n ev st.drawn).length := by
  induction n with
  | zero => intro ev st; simp [iterations, accList]
  | succ n ih =>
    intro ev st
    simp only [iterations, accList]
    by_cases ha : C.accept draw ev st.drawn = true
    · by_cases hb : C.atmost1 = true
      · simp [ha, hb, List.range']
      · simp only [ha, hb, if_true, if_false, Bool.false_eq_true, List.filter_cons,
          List.map_cons, List.length_cons, List.range'_succ, ih]
    · simp only [ha, if_false, Bool.false_eq_true, List.filter_cons, ih]

end ScanCtx

/-- C17: with a proposal matrix of at least one column, in the scan of every
draw each iteration starts with `acc_i ≤ ev`, so every write `Z(draw, acc_i)`
targets a column below `Zstar.cols()`, the width of `Z`; after the scan
`max_acc_i ≤ Zstar.cols() - 1`, so the columns `0 .. max_acc_i` lie inside
`Z`, which has one row per draw; and with valid shapes the matrix returned is
that block of `Z`, read inside `Z`. -/
theorem C17_writes_inside_Z (E : Env) (rate_maj : NumericMatrix) (is_cumulative : Bool)
    (range_t : NumericMatrix) (tol : Val) (atmost1 : Bool)
    (hc : 0 < (scanCtx E rate_maj is_cumulative range_t tol atmost1).Zstar.ncol) :
    (∀ d, d < rate_maj.nrow →
      ∀ x ∈ (scanCtx E rate_maj is_cumulative range_t tol atmost1).iterations d
          (scanCtx E rate_maj is_cumulative range_t tol atmost1).Zstar.ncol 0
          { (scanCtx E rate_maj is_cumulative range_t tol atmost1).after rate_maj.nrow d with
            acc_i := 0 },
        x.2.1 ≤ x.1 ∧
        x.1 < (scanCtx E rate_maj is_cumulative range_t tol atmost1).Zstar.ncol ∧
        x.2.1 < ((scanCtx E rate_maj is_cumulative range_t tol atmost1).after
          rate_maj.nrow d).Z.ncol) ∧
    ((scanCtx E rate_maj is_cumulative range_t tol atmost1).after
        rate_maj.nrow rate_maj.nrow).max_acc_i ≤
      (scanCtx E rate_maj is_cumulative range_t tol atmost1).Zstar.ncol - 1 ∧
    ((scanCtx E rate_maj is_cumulative range_t tol atmost1).after
        rate_maj.nrow rate_maj.nrow).max_acc_i <
      ((scanCtx E rate_maj is_cumulative range_t tol atmost1).after
        rate_maj.nrow rate_maj.nrow).Z.ncol ∧
    ((scanCtx E rate_maj is_cumulative range_t tol atmost1).after
        rate_maj.nrow rate_maj.nrow).Z.nrow = rate_maj.nrow ∧
    (ValidInput rate_maj range_t →
      ∃ out,
        vdraw_intensity_step_regular E rate_maj is_cumulative range_t tol atmost1 = some out ∧
        out.nrow = ((scanCtx E rate_maj is_cumulative range_t tol atmost1).after
          rate_maj.nrow rate_maj.nrow).Z.nrow ∧
        out.ncol ≤ ((scanCtx E rate_maj is_cumulative range_t tol atmost1).after
          rate_maj.nrow rate_maj.nrow).Z.ncol ∧
        ∀ i j, i < out.nrow → j < out.ncol →
          out.cell i j = ((scanCtx E rate_maj is_cumulative range_t tol atmost1).after
            rate_maj.nrow rate_maj.nrow).Z.cell i j) := by
  have hle := ScanCtx.sup_accepted_le (scanCtx E rate_maj is_cumulative range_t tol atmost1)
    rate_maj.nrow
  have hmax := ScanCtx.after_max (scanCtx E rate_maj is_cumulative range_t tol atmost1)
    rate_maj.nrow rate_maj.nrow
  have hdims := ScanCtx.after_dims (scanCtx E rate_maj is_cumulative range_t tol atmost1)
    rate_maj.nrow
  refine ⟨?_, by omega, by rw [(hdims rate_maj.nrow).2]; omega, (hdims rate_maj.nrow).1, ?_⟩
  · intro d _ x hx
    obtain ⟨h1, -, h3⟩ := ScanCtx.iterations_invariant _ d _ 0 _ (Nat.le_refl 0) x hx
    rw [(hdims d).2]
    exact ⟨h1, by omega, by omega⟩
  · intro hv
    obtain ⟨out, hout, hrow, hcol, hcell⟩ :=
      vdraw_result E rate_maj is_cumulative range_t tol atmost1 hv
    refine ⟨out, hout, by rw [hrow, (hdims rate_maj.nrow).1],
      by rw [(hdims rate_maj.nrow).2]; omega, ?_⟩
    intro i j hi hj
    rw [hcell i j (by omega) (by omega), ScanCtx.after_cell]
    simp [show i < rate_maj.nrow by omega]

/-- C17 at a concrete input: two draws with two proposal columns. -/
theorem C17_witness :
    (∀ d, d < cum24.nrow →
      ∀ x ∈ (scanCtx envTwo cum24 true range02 (Val.fin 0) false).iterations d
          (scanCtx envTwo cum24 true range02 (Val.fin 0) false).Zstar.ncol 0
          { (scanCtx envTwo cum24 true range02 (Val.fin 0) false).after cum24.nrow d with
            acc_i := 0 },
        x.2.1 ≤ x.1 ∧
        x.1 < (scanCtx envTwo cum24 true range02 (Val.fin 0) false).Zstar.ncol ∧
        x.2.1 < ((scanCtx envTwo cum24 true range02 (Val.fin 0) false).after
          cum24.nrow d).Z.ncol) ∧
    ((scanCtx envTwo cum24 true range02 (Val.fin 0) false).after
        cum24.nrow cum24.nrow).max_acc_i ≤
      (scanCtx envTwo cum24 true range02 (Val.fin 0) false).Zstar.ncol - 1 ∧
    ((scanCtx envTwo cum24 true range02 (Val.fin 0) false).after
        cum24.nrow cum24.nrow).max_acc_i <
      ((scanCtx envTwo cum24 true range02 (Val.fin 0) false).after
        cum24.nrow cum24.nrow).Z.ncol ∧
    ((scanCtx envTwo cum24 true range02 (Val.fin 0) false).after
        cum24.nrow cum24.nrow).Z.nrow = cum24.nrow ∧
    (ValidInput cum24 range02 →
      ∃ out,
        vdraw_intensity_step_regular envTwo cum24 true range02 (Val.fin 0) false = some out ∧
        out.nrow = ((scanCtx envTwo cum24 true range02 (Val.fin 0) false).after
          cum24.nrow cum24.nrow).Z.nrow ∧
        out.ncol ≤ ((scanCtx envTwo cum24 true range02 (Val.fin 0) false).after
          cum24.nrow cum24.nrow).Z.ncol ∧
        ∀ i j, i < out.nrow → j < out.ncol →
          out.cell i j = ((scanCtx envTwo cum24 true range02 (Val.fin 0) false).after
            cum24.nrow cum24.nrow).Z.cell i j) :=
  C17_writes_inside_Z envTwo cum24 true range02 (Val.fin 0) false (by decide)

end Nhppp
